import Mathlib

/-!
Verification of the Balto data-plane core against its natural-language
specification.  Strings are modelled as `List Char`; Go `uint32`/`uint64`
counters are modelled as `Nat` (with an explicit `% 2^32` where Go's
wrap-around of `uint32` matters, namely the half-open in-flight counter);
`time.Duration` / `UnixNano` timestamps are modelled as `Int` nanoseconds,
with the current time passed explicitly where the Go code calls
`time.Now()`.
-/

namespace Balto

abbrev Str := List Char

/-- Go `strings.HasPrefix`. -/
def hasPfx (s pre : Str) : Bool := pre.isPrefixOf s

/-- Go `strings.HasSuffix`. -/
def hasSfx (s suf : Str) : Bool := suf.isSuffixOf s

/-- Go `strings.TrimPrefix`: drop `pre` from the front of `s` when present,
otherwise return `s` unchanged. -/
def trimPfx (s pre : Str) : Str := if hasPfx s pre then s.drop pre.length else s

/-- Go `strings.TrimSuffix`: drop `suf` from the end of `s` when present,
otherwise return `s` unchanged. -/
def trimSfx (s suf : Str) : Str := if hasSfx s suf then s.take (s.length - suf.length) else s

/-! ## Proxy prefix stripping (`stripPrefix` and its call site in `Proxy.ServeHTTP`) -/

/-- Go `stripPrefix(path, prefix)` from the proxy front-end:
if the route prefix ends in `/*`, remove everything up to (not including)
`/*`, re-add a leading `/` when missing and collapse `""`/`"/"` to `"/"`;
otherwise remove the exact prefix with `strings.TrimPrefix`. -/
def stripPfx (path pre : Str) : Str :=
  if hasSfx pre ['/', '*'] then
    let basePfx := trimSfx pre ['/', '*']
    let stripped := trimPfx path basePfx
    if stripped = [] ∨ stripped = ['/'] then ['/']
    else if ¬ hasPfx stripped ['/'] then '/' :: stripped
    else stripped
  else trimPfx path pre

/-- The outbound URL path computed in `Proxy.ServeHTTP`:
`outURL.Path = stripPrefix(req.URL.Path, route.Prefix)` followed by the
collapse `if outURL.Path == "" { outURL.Path = "/" }`. -/
def servePath (path pre : Str) : Str :=
  let p := stripPfx path pre
  if p = [] then ['/'] else p

/-! ## Circuit breaker (`internal/core/circuit/circuit.go`) -/

namespace circuit

inductive BState where
  | Closed
  | Open
  | HalfOpen
deriving DecidableEq, Repr

structure Config where
  failureThreshold : Nat
  successThreshold : Nat
  timeout : Int          -- nanoseconds (Go `time.Duration`)
  maxHalfOpenRequests : Nat
deriving DecidableEq, Repr

structure Breaker where
  state : BState
  openTime : Int         -- UnixNano timestamp of the transition to Open
  halfOpenInFlight : Nat -- a Go `uint32`: kept in `[0, 2^32)` by `% 2^32`
  openTimeout : Int      -- current (backed-off) open timeout, nanoseconds
  failures : Nat
  successes : Nat
  cfg : Config
deriving DecidableEq, Repr

def nanosPerSecond : Int := 1000000000

def u32Mod : Nat := 4294967296

/-- Go `circuit.New`: zero config fields fall back to the defaults
(failure 5, success 5, timeout 10 s, max half-open 3); the breaker starts
Closed with the current open timeout equal to the (defaulted) base timeout. -/
def new (cfg : Config) : Breaker :=
  let cfg1 := if cfg.failureThreshold = 0 then { cfg with failureThreshold := 5 } else cfg
  let cfg2 := if cfg1.successThreshold = 0 then { cfg1 with successThreshold := 5 } else cfg1
  let cfg3 := if cfg2.timeout = 0 then { cfg2 with timeout := 10 * nanosPerSecond } else cfg2
  let cfg4 := if cfg3.maxHalfOpenRequests = 0 then { cfg3 with maxHalfOpenRequests := 3 } else cfg3
  { state := .Closed, openTime := 0, halfOpenInFlight := 0,
    openTimeout := cfg4.timeout, failures := 0, successes := 0, cfg := cfg4 }

/-- Go `adjustOpenTimeoutLocked`; `increase = true` is `increaseTimeout`
(double, capped at 10× base), `false` is `resetTimeout`. -/
def adjustOpenTimeout (increase : Bool) (b : Breaker) : Breaker :=
  let base := if b.cfg.timeout ≤ 0 then 10 * nanosPerSecond else b.cfg.timeout
  let current := if b.openTimeout ≤ 0 then base else b.openTimeout
  if increase then
    { b with openTimeout := min (current * 2) (base * 10) }
  else
    { b with openTimeout := base }

/-- Go `transitionToOpenLocked` (the `time.Now()` it stamps is `now`). -/
def transitionToOpen (now : Int) (b : Breaker) : Breaker :=
  adjustOpenTimeout true
    { b with state := .Open, openTime := now, successes := 0, failures := 0,
             halfOpenInFlight := 0 }

/-- Go `transitionToHalfOpenLocked`. -/
def transitionToHalfOpen (b : Breaker) : Breaker :=
  adjustOpenTimeout false
    { b with state := .HalfOpen, openTime := 0, failures := 0, successes := 0,
             halfOpenInFlight := 0 }

/-- Go `transitionToClosedLocked`. -/
def transitionToClosed (b : Breaker) : Breaker :=
  adjustOpenTimeout false
    { b with state := .Closed, failures := 0, successes := 0, halfOpenInFlight := 0 }

/-- Go `tryAcquireHalfOpenSlot`: atomically increment the in-flight counter
unless it has reached the limit. -/
def tryAcquireHalfOpenSlot (b : Breaker) : Bool × Breaker :=
  let limit := if b.cfg.maxHalfOpenRequests = 0 then 1 else b.cfg.maxHalfOpenRequests
  if b.halfOpenInFlight ≥ limit then (false, b)
  else (true, { b with halfOpenInFlight := (b.halfOpenInFlight + 1) % u32Mod })

/-- Go `releaseHalfOpenSlotLocked`: `halfOpenInFlight.Add(^uint32(0))`, i.e.
a wrapping decrement of the `uint32` counter. -/
def releaseHalfOpenSlot (b : Breaker) : Breaker :=
  { b with halfOpenInFlight := (b.halfOpenInFlight + (u32Mod - 1)) % u32Mod }

/-- Go `checkAndTransitionOpen` (sequential semantics: the CAS from Open to
Half-Open succeeds, its winner runs the cold-path transition then tries to
acquire a slot). -/
def checkAndTransitionOpen (now : Int) (b : Breaker) : Bool × Breaker :=
  let timeout := if b.openTimeout ≤ 0 then b.cfg.timeout else b.openTimeout
  if now - b.openTime ≤ timeout then (false, b)
  else tryAcquireHalfOpenSlot (transitionToHalfOpen b)

/-- Go `Breaker.Allow` at time `now`, returning the decision and the updated
breaker. -/
def allow (now : Int) (b : Breaker) : Bool × Breaker :=
  match b.state with
  | .Closed => (true, b)
  | .Open => checkAndTransitionOpen now b
  | .HalfOpen => tryAcquireHalfOpenSlot b

/-- Go `Breaker.RecordSuccess` (regular traffic). -/
def recordSuccess (b : Breaker) : Breaker :=
  match b.state with
  | .Closed => { b with failures := 0, successes := 0 }
  | .HalfOpen =>
    let b1 := releaseHalfOpenSlot b
    let b2 := { b1 with successes := b1.successes + 1 }
    if b2.successes ≥ b2.cfg.successThreshold then transitionToClosed b2 else b2
  | .Open => b

/-- Go `Breaker.RecordProbeSuccess` (health-checker path). -/
def recordProbeSuccess (b : Breaker) : Breaker :=
  match b.state with
  | .Closed => { b with failures := 0, successes := 0 }
  | .HalfOpen =>
    let b1 := releaseHalfOpenSlot b
    let b2 := { b1 with successes := b1.successes + 1 }
    if b2.successes ≥ b2.cfg.successThreshold then transitionToClosed b2 else b2
  | .Open => transitionToHalfOpen b

/-- Go `Breaker.RecordFailure` at time `now`. -/
def recordFailure (now : Int) (b : Breaker) : Breaker :=
  match b.state with
  | .Closed =>
    let b1 := { b with failures := b.failures + 1 }
    if b1.failures ≥ b1.cfg.failureThreshold then transitionToOpen now b1 else b1
  | .HalfOpen => transitionToOpen now (releaseHalfOpenSlot b)
  | .Open => b

end circuit

def bC4 : circuit.Breaker := circuit.new ⟨2, 2, 100, 1⟩

def bC5 : circuit.Breaker :=
  circuit.recordProbeSuccess
    (circuit.recordProbeSuccess (circuit.recordFailure 0 (circuit.new ⟨1, 3, 100, 3⟩)))

/-! ## Backend and metadata (`internal/core/core.go`) -/

structure BackendMetadata where
  passiveFailCount : Nat
  probeFailCount : Nat
  probeSuccessCount : Nat
  lastFailure : Int
  lastSuccess : Int
  activeConns : Nat
  totalRequests : Nat
  tempWeight : Int
deriving DecidableEq, Repr

/-- Go `core.Backend`; the `healthy`/`draining` booleans are the two bits of
the atomic `State` word, and `circuit` is the owned breaker (always set by
`NewBackend`). The upstream URL is opaque to every verified operation and
is kept as a plain string. -/
structure Backend where
  id : Str
  url : Str
  weight : Nat
  healthy : Bool
  draining : Bool
  meta : BackendMetadata
  circuit : circuit.Breaker
deriving DecidableEq, Repr

/-- Go `Backend.SetHealthy`: CAS loop setting/clearing `FlagHealthy`;
returns whether the flag changed. -/
def Backend.setHealthy (b : Backend) (v : Bool) : Bool × Backend :=
  (b.healthy ≠ v, { b with healthy := v })

/-- Go `Backend.SetDraining`. -/
def Backend.setDraining (b : Backend) (v : Bool) : Backend :=
  { b with draining := v }

/-! ## Backend pool (`internal/core/backendpool/backendpool.go`, the current
version with the embedded circuit breaker) -/

namespace backendpool

structure PoolConfig where
  serviceName : Str
  healthThreshold : Nat
  probeHealthThreshold : Nat
  probeRecoveryThreshold : Nat
  probePath : Str
  probeInterval : Int
  timeout : Int
  retry : Int
  circuitFailureThreshold : Nat
  circuitSuccessThreshold : Nat
  circuitTimeout : Int          -- seconds
  circuitMaxHalfOpenRequests : Nat
deriving DecidableEq, Repr

/-- The pool: the atomically published backend list plus the config
snapshot.  The pluggable balancer is passed to `next` as a function. -/
structure Pool where
  backends : List Backend
  config : PoolConfig
deriving DecidableEq, Repr

/-- Go `backendpool.NewBackend`: fresh metadata (all counters zero), a
fresh breaker from `cbCfg`, and `SetHealthy(true)` on the zero state word
(healthy set, draining clear). -/
def newBackend (id u : Str) (weight : Nat) (cbCfg : circuit.Config) : Backend :=
  { id := id, url := u, weight := weight, healthy := true, draining := false,
    meta := ⟨0, 0, 0, 0, 0, 0, 0, 0⟩, circuit := circuit.new cbCfg }

/-- Go `Pool.Add`: build the breaker config from the pool config
(`CircuitTimeout` seconds become a duration) and append the new backend to
the published list. -/
def Pool.add (p : Pool) (id u : Str) (weight : Nat) : Pool :=
  let cfg := p.config
  let cbCfg : circuit.Config :=
    { failureThreshold := cfg.circuitFailureThreshold,
      successThreshold := cfg.circuitSuccessThreshold,
      timeout := cfg.circuitTimeout * circuit.nanosPerSecond,
      maxHalfOpenRequests := cfg.circuitMaxHalfOpenRequests }
  { p with backends := p.backends ++ [newBackend id u weight cbCfg] }

/-- The candidate-building loop of Go `Pool.Next`: walk the backend list in
order, skip a backend that is unhealthy or draining (its breaker is not
consulted), otherwise call `Circuit.Allow` (which may update the breaker)
and keep the backend iff it allowed.  Returns the backend list with the
updated breakers and the candidate sublist. -/
def nextLoop (now : Int) : List Backend → List Backend × List Backend
  | [] => ([], [])
  | b :: rest =>
    if ¬ b.healthy ∨ b.draining then
      let (us, cs) := nextLoop now rest
      (b :: us, cs)
    else
      let (ok, c') := circuit.allow now b.circuit
      let b' := { b with circuit := c' }
      let (us, cs) := nextLoop now rest
      (b' :: us, if ok then b' :: cs else cs)

/-- Go `Pool.Next` with the balancer abstracted as `strat`: empty list or
empty candidate set give `none`, otherwise the strategy chooses among the
candidates. -/
def Pool.next (strat : List Backend → Option Backend) (now : Int) (p : Pool) :
    Option Backend :=
  if p.backends.isEmpty then none
  else
    let cs := (nextLoop now p.backends).2
    if cs.isEmpty then none else strat cs

/-- Go `Pool.RecordSuccess`: `Meta.RecordSuccess()` (increment total
requests, stamp last success) and `Circuit.RecordSuccess()`; the health and
draining flags are not touched. -/
def Pool.recordSuccess (now : Int) (b : Backend) : Backend :=
  { b with
    meta := { b.meta with totalRequests := b.meta.totalRequests + 1, lastSuccess := now },
    circuit := circuit.recordSuccess b.circuit }

/-- One pass of the scan inside Go `Pool.WaitForDrain`: walk the snapshot,
set `found` when a backend matches the id AND is draining, and return
success at the first such backend whose active-connection count is zero.
Result is `(found, success)`. -/
def drainScan (id : Str) : List Backend → Bool × Bool
  | [] => (false, false)
  | b :: bs =>
    if b.id = id ∧ b.draining then
      if b.meta.activeConns = 0 then (true, true)
      else (true, (drainScan id bs).2)
    else drainScan id bs

/-- Go `Pool.WaitForDrain`, with the wall clock abstracted into `snaps`:
the successive snapshots of the pool's backend list seen at each 50 ms
poll before the deadline (an empty list of snapshots means the deadline
has already elapsed, e.g. a non-positive timeout).  Returns `true` on a
scan success, `false` as soon as no draining backend with the id is found,
and `false` when the polls are exhausted. -/
def waitForDrain (id : Str) : List (List Backend) → Bool
  | [] => false
  | items :: restSnaps =>
    let (found, success) := drainScan id items
    if success then true
    else if ¬ found then false
    else waitForDrain id restSnaps

def bDrain : Backend :=
  { id := ['x'], url := ['u'], weight := 1, healthy := true, draining := false,
    meta := ⟨0, 0, 0, 0, 0, 0, 0, 0⟩, circuit := circuit.new ⟨1, 1, 1, 1⟩ }

/-- The eligibility conjunction of `Pool.Next`: healthy, not draining, and
the breaker allows. -/
def eligible (now : Int) (b : Backend) : Bool :=
  b.healthy && ! b.draining && (circuit.allow now b.circuit).1

def pW : Pool :=
  { backends := [newBackend ['a'] ['u'] 1 ⟨1, 1, 1, 1⟩],
    config := ⟨[], 1, 1, 1, [], 1, 1, 1, 1, 1, 1, 1⟩ }

end backendpool

/-! ## Load balancing: smooth weighted round-robin
(`internal/core/balancer/wrr.go` and `balancer.go`) -/

namespace balancer

/-- Go `filterCandidates`: keep healthy, non-draining backends. -/
def filterCandidates (bs : List Backend) : List Backend :=
  bs.filter (fun b => b.healthy && ! b.draining)

/-- Go `totalWeight`: the sum of the candidates' weights (a `uint32` sum;
the theorems below restrict it to `< 2^32` where Go would wrap). -/
def totalWeight (bs : List Backend) : Nat := (bs.map (·.weight)).sum

/-- The first pass of Go `WeightedRR.Next`'s loop: every candidate's
temp-weight is increased by its weight. -/
def addTempWeights (bs : List Backend) : List Backend :=
  bs.map (fun b =>
    { b with meta := { b.meta with tempWeight := b.meta.tempWeight + (b.weight : Int) } })

/-- The best-candidate scan of Go `WeightedRR.Next`: running maximum with
initial score `-1`, strict comparison (so the first index attaining the
maximum wins).  In the Go loop each element's temp-weight is bumped just
before it is compared, which is equivalent to scanning the fully bumped
list. -/
def bestIdxAux : List Backend → Int → Option Nat → Nat → Option Nat
  | [], _, best, _ => best
  | b :: bs, score, best, i =>
    if score < b.meta.tempWeight then bestIdxAux bs b.meta.tempWeight (some i) (i + 1)
    else bestIdxAux bs score best (i + 1)

/-- Go `WeightedRR.Next`: filter, bump every temp-weight, pick the best,
subtract the total weight from the chosen one.  Returns the choice and the
updated candidate list (`none` with no effect when the candidates are
empty; a `none` best — every bumped temp-weight `≤ -1` — is where the Go
code would dereference a nil pointer). -/
def wrrNext (backends : List Backend) : Option Backend × List Backend :=
  let candidates := filterCandidates backends
  if candidates.isEmpty then (none, candidates)
  else
    let cs := addTempWeights candidates
    match bestIdxAux cs (-1) none 0 with
    | none => (none, cs)
    | some i =>
      match cs.get? i with
      | none => (none, cs)
      | some b =>
        let b' := { b with
          meta := { b.meta with
            tempWeight := b.meta.tempWeight - (totalWeight candidates : Int) } }
        (some b', cs.set i b')

/-- The candidate list after one WRR selection. -/
def wrrStep (bs : List Backend) : List Backend := (wrrNext bs).2

/-- `t` successive WRR selections. -/
def wrrIter : Nat → List Backend → List Backend
  | 0, bs => bs
  | t + 1, bs => wrrIter t (wrrStep bs)

/-- The subtraction applied to the chosen candidate: its temp-weight loses
the total weight of the candidate list. -/
def subTotal (bs : List Backend) (b : Backend) : Backend :=
  { b with meta := { b.meta with
      tempWeight := b.meta.tempWeight - (totalWeight bs : Int) } }

def sumTemps (bs : List Backend) : Int := (bs.map (fun b => b.meta.tempWeight)).sum

def setTemp (b : Backend) (v : Int) : Backend :=
  { b with meta := { b.meta with tempWeight := v } }

/-- The state after `t` selections: `bs0` with temp-weights overridden
by `f`. -/
def reconstruct (bs0 : List Backend) (f : Fin bs0.length → Int) : List Backend :=
  List.ofFn (fun i => setTemp (bs0.get i) (f i))

/-- The invariant after `t` WRR selections starting from `bs0` with all
temp-weights at zero: some per-index selection counts `c`, summing to `t`
and bounded by the weights, reproduce the state. -/
def CycleInv (bs0 : List Backend) (t : Nat) (cur : List Backend) : Prop :=
  ∃ c : Fin bs0.length → Nat,
    (∑ i, c i) = t ∧
    (∀ i, c i ≤ (bs0.get i).weight) ∧
    cur = reconstruct bs0 (fun i =>
      (t : Int) * ((bs0.get i).weight : Int) - (totalWeight bs0 : Int) * (c i : Int))

def wrrA : Backend :=
  { id := ['a'], url := ['u'], weight := 2, healthy := true, draining := false,
    meta := ⟨0, 0, 0, 0, 0, 0, 0, 0⟩, circuit := circuit.new ⟨1, 1, 1, 1⟩ }

def wrrB : Backend := { wrrA with id := ['b'], weight := 1 }

end balancer

/-! ## Route trie (`internal/router/router.go`) -/

namespace router

/-- Go `router.Route`; `pfx` is the `Prefix` field (the path as originally
declared) and `poolId` stands for the identity of the owned
`*backendpool.Pool`. -/
structure Route where
  pfx : Str
  poolId : Nat
deriving DecidableEq, Repr

abbrev Params := List (Str × Str)

/-- Go map assignment `params[k] = v`: overwrite or append. -/
def insertParam : Params → Str → Str → Params
  | [], k, v => [(k, v)]
  | (k', v') :: ps, k, v =>
    if k' = k then (k, v) :: ps else (k', v') :: insertParam ps k v

/-- Go `delete(params, k)`. -/
def eraseParam : Params → Str → Params
  | [], _ => []
  | (k', v') :: ps, k =>
    if k' = k then eraseParam ps k else (k', v') :: eraseParam ps k

def getParam : Params → Str → Option Str
  | [], _ => none
  | (k', v') :: ps, k => if k' = k then some v' else getParam ps k

/-- Go `router.node`.  The children map is modelled as a list of child
nodes looked up by their `segment` field — in the Go code the map key of a
child is always its `segment` (`newNode(seg)` stores `seg` and every clone
preserves it), and the list order stands for the (deterministic choice of)
map iteration order. -/
inductive Node where
  | mk (segment : Str) (route : Option Route) (paramName : Str)
       (isWildcard : Bool) (children : List Node)
deriving Repr

def Node.segment : Node → Str | .mk s _ _ _ _ => s
def Node.route : Node → Option Route | .mk _ r _ _ _ => r
def Node.paramName : Node → Str | .mk _ _ p _ _ => p
def Node.isWildcard : Node → Bool | .mk _ _ _ w _ => w
def Node.children : Node → List Node | .mk _ _ _ _ cs => cs

/-- The `len(seg) > 1 && seg[0] == ':'` test of the Go code. -/
def isParamSeg : Str → Bool
  | c :: _ :: _ => c = ':'
  | _ => false

/-- Go `newNode`. -/
def newNode (seg : Str) : Node :=
  ⟨seg, none, if isParamSeg seg then seg.drop 1 else [], seg = ['*'], []⟩

/-- `n.children[seg]` of the Go map: first child whose segment is `seg`. -/
def findChild : List Node → Str → Option Node
  | [], _ => none
  | c :: cs, seg => if c.segment = seg then some c else findChild cs seg

/-- `copied.children[seg] = nw` of the Go map: replace the child keyed
`seg`, or add it. -/
def setChild : List Node → Str → Node → List Node
  | [], _, nw => [nw]
  | c :: cs, seg, nw => if c.segment = seg then nw :: cs else c :: setChild cs seg nw

/-- Go `node.insert`: copy-on-write along the inserted path.  The
`len(segments) == 1` branch of the Go code writes the route into a clone of
the child; the recursive branch descends. -/
def Node.insert (n : Node) : List Str → Route → Node
  | [], route => ⟨n.segment, some route, n.paramName, n.isWildcard, n.children⟩
  | seg :: rest, route =>
    let child := (findChild n.children seg).getD (newNode seg)
    let child' : Node :=
      match rest with
      | [] => ⟨child.segment, some route, child.paramName, child.isWildcard, child.children⟩
      | _ :: _ => child.insert rest route
    ⟨n.segment, n.route, n.paramName, n.isWildcard, setChild n.children seg child'⟩

/-- The parameter-children loop of Go `node.lookup`: bind the segment,
recurse (the recursive lookup of the remaining segments is the function
argument `lk`), and on failure unbind and move on. -/
def tryParams (lk : Node → Params → Option Route × Params) :
    List Node → Str → Params → Option Route × Params
  | [], _, params => (none, params)
  | c :: cs, seg, params =>
    if isParamSeg c.segment then
      match lk c (insertParam params c.paramName seg) with
      | (some r, ps) => (some r, ps)
      | (none, ps) => tryParams lk cs seg (eraseParam ps c.paramName)
    else tryParams lk cs seg params

/-- Go `node.lookup`.  The pair threads the `Params` map (which the Go code
mutates in place, including the deletions done when a parameter branch
backtracks): the first component is the returned route (`none` = `false`),
the second the state of the map afterwards. -/
def lookupNode : Node → List Str → Params → Option Route × Params
  | n, [], params =>
    match n.route with
    | some r => (some r, params)
    | none =>
      match findChild n.children ['*'] with
      | some child =>
        match child.route with
        | some r => (some r, params)
        | none => (none, params)
      | none => (none, params)
  | n, seg :: rest, params =>
    match (match findChild n.children seg with
           | some child => lookupNode child rest params
           | none => ((none : Option Route), params)) with
    | (some r, ps) => (some r, ps)
    | (none, ps) =>
      match tryParams (fun c ps2 => lookupNode c rest ps2) n.children seg ps with
      | (some r, ps2) => (some r, ps2)
      | (none, ps2) =>
        match findChild n.children ['*'] with
        | some child =>
          if child.isWildcard ∧ child.route.isSome then (child.route, ps2)
          else (none, ps2)
        | none => (none, ps2)

/-- The route component of `tryParams`, with the params dropped (the
params map never influences which route a lookup finds — it is only
written to — so the control flow is identical; `lookupNode_fst` makes
this precise). -/
def tryParamsRoute (lk : Node → Option Route) : List Node → Option Route
  | [] => none
  | c :: cs =>
    if isParamSeg c.segment then
      match lk c with
      | some r => some r
      | none => tryParamsRoute lk cs
    else tryParamsRoute lk cs

/-- The route component of `lookupNode` (see `lookupNode_fst`). -/
def lookupRoute : Node → List Str → Option Route
  | n, [] =>
    match n.route with
    | some r => some r
    | none =>
      match findChild n.children ['*'] with
      | some child => child.route
      | none => none
  | n, seg :: rest =>
    match (match findChild n.children seg with
           | some child => lookupRoute child rest
           | none => (none : Option Route)) with
    | some r => some r
    | none =>
      match tryParamsRoute (fun c => lookupRoute c rest) n.children with
      | some r => some r
      | none =>
        match findChild n.children ['*'] with
        | some child =>
          if child.isWildcard ∧ child.route.isSome then child.route
          else none
        | none => none

/-- Index of the last occurrence of `c` in `s` (Go `strings.LastIndex`). -/
def lastIdxOf : Str → Char → Option Nat
  | [], _ => none
  | a :: as, c =>
    match lastIdxOf as c with
    | some i => some (i + 1)
    | none => if a = c then some 0 else none

/-- Go `Host.normalize`: lower-case, then strip everything from the last
`:` on (the port). -/
def normalizeHost (h : Str) : Str :=
  let t := h.map Char.toLower
  match lastIdxOf t ':' with
  | some i => t.take i
  | none => t

/-- Go `strings.TrimSpace`. -/
def trimSpace (s : Str) : Str :=
  ((s.dropWhile Char.isWhitespace).reverse.dropWhile Char.isWhitespace).reverse

/-- Go `normalizePrefix`: trim spaces, map `""`/`"/"` to `"/"`, drop one
trailing `/`, ensure a leading `/`. -/
def normalizePfx (p : Str) : Str :=
  let p1 := trimSpace p
  if p1 = [] ∨ p1 = ['/'] then ['/']
  else
    let p2 := trimSfx p1 ['/']
    if ¬ hasPfx p2 ['/'] then '/' :: p2 else p2

/-- Go `strings.Split(path, "/")`. -/
def splitSeg : Str → List Str
  | [] => [[]]
  | c :: cs =>
    match splitSeg cs with
    | [] => [[c]]
    | s :: ss => if c = '/' then [] :: s :: ss else (c :: s) :: ss

/-- Go `pathToSegments`: `/` is the empty segment list, otherwise split on
`/` and drop empty segments. -/
def pathToSegs (path : Str) : List Str :=
  if path = ['/'] then [] else (splitSeg path).filter (· ≠ [])

/-- Go `router.Router`: the host → trie-root map, as an association list.
The healthchecker map is not consulted by `Add`'s trie update or by
`Lookup` and is omitted. -/
structure Router where
  hosts : List (Str × Node)

def findHost : List (Str × Node) → Str → Option Node
  | [], _ => none
  | (k, n) :: hs, h => if k = h then some n else findHost hs h

def setHost : List (Str × Node) → Str → Node → List (Str × Node)
  | [], h, n => [(h, n)]
  | (k, m) :: hs, h, n => if k = h then (h, n) :: hs else (k, m) :: setHost hs h n

/-- Go `NewRouter`. -/
def Router.new : Router := ⟨[]⟩

/-- Go `Router.Add`: a no-op on an empty host or an empty service list;
otherwise normalise host and path, build the fresh route (whose pool —
freshly created and filled with one backend per service — is stood for by
`poolId`), and insert into a copy of the host map, starting from a fresh
`&node{}` root when the host is new. -/
def Router.add (r : Router) (host path : Str) (services : List Str) (poolId : Nat) :
    Router :=
  if host = [] ∨ services = [] then r
  else
    let h := normalizeHost host
    let segments := pathToSegs (normalizePfx path)
    let route : Route := ⟨path, poolId⟩
    let root := (findHost r.hosts h).getD ⟨[], none, [], false, []⟩
    ⟨setHost r.hosts h (root.insert segments route)⟩

/-- Go `Router.Lookup`: normalise the host, segment the request path, and
run the trie lookup with a fresh params map. -/
def Router.lookup (r : Router) (host path : Str) : Option (Route × Params) :=
  match findHost r.hosts (normalizeHost host) with
  | none => none
  | some root =>
    match lookupNode root (pathToSegs (normalizePfx path)) [] with
    | (some route, ps) => some (route, ps)
    | (none, _) => none

/-- The three-stage chain of `node.lookup`: exact match, then the
parameter loop, then the wildcard child. -/
def chainOpt (a b c : Option Route) : Option Route :=
  match a with
  | some r => some r
  | none =>
    match b with
    | some r => some r
    | none => c

def rC3a : Router := Router.new.add ['h'] ['/', '*'] [['u']] 0

def rC3b : Router := rC3a.add ['h'] ['/', 'x'] [['u']] 1

def rP1 : Router := Router.new.add ['h'] ['/', ':', 'a', '/', '*'] [['u']] 0

def rP2 : Router := rP1.add ['h'] ['/', ':', 'a', '/', ':', 'a', '/', 'z'] [['u']] 1

def nC2 : Node :=
  ⟨[], none, [], false, [⟨['x'], some ⟨['p'], 3⟩, [], false, []⟩]⟩

end router

/-! # Theorems -/

/-! ## Params do not influence the control flow of the trie lookup -/

namespace router

theorem tryParams_fst (lkP : Node → Params → Option Route × Params)
    (lkR : Node → Option Route) (hagree : ∀ c ps, (lkP c ps).1 = lkR c) :
    ∀ (cs : List Node) (seg : Str) (ps : Params),
      (tryParams lkP cs seg ps).1 = tryParamsRoute lkR cs := by
  intro cs
  induction cs with
  | nil => intro seg ps; rfl
  | cons c cs ih =>
    intro seg ps
    simp only [tryParams, tryParamsRoute]
    by_cases hp : isParamSeg c.segment = true
    · rw [if_pos hp, if_pos hp]
      have h1 := hagree c (insertParam ps c.paramName seg)
      cases hE : lkP c (insertParam ps c.paramName seg) with
      | mk r0 ps0 =>
        rw [hE] at h1
        cases r0 with
        | some r => simp [← h1]
        | none => simp [← h1, ih]
    · rw [if_neg hp, if_neg hp]
      exact ih seg ps

/-- The first (route) component of `node.lookup` is independent of the
params map: params are only written, never read, so they cannot change
which route is found. -/
theorem lookupNode_fst :
    ∀ (segs : List Str) (n : Node) (ps : Params),
      (lookupNode n segs ps).1 = lookupRoute n segs := by
  intro segs
  induction segs with
  | nil =>
    intro n ps
    simp only [lookupNode, lookupRoute]
    cases hr : n.route with
    | some r => rfl
    | none =>
      cases hw : findChild n.children ['*'] with
      | none => rfl
      | some child => cases hcr : child.route <;> simp [hcr]
  | cons seg rest ih =>
    intro n ps
    simp only [lookupNode, lookupRoute]
    have htail : ∀ ps1 : Params,
        (match tryParams (fun c ps2 => lookupNode c rest ps2) n.children seg ps1 with
         | (some r, ps2) => (some r, ps2)
         | (none, ps2) =>
            match findChild n.children ['*'] with
            | some child =>
              if child.isWildcard ∧ child.route.isSome then (child.route, ps2)
              else (none, ps2)
            | none => (none, ps2)).1
        = (match tryParamsRoute (fun c => lookupRoute c rest) n.children with
           | some r => some r
           | none =>
            match findChild n.children ['*'] with
            | some child =>
              if child.isWildcard ∧ child.route.isSome then child.route
              else none
            | none => none) := by
      intro ps1
      have htp := tryParams_fst (fun c ps2 => lookupNode c rest ps2)
        (fun c => lookupRoute c rest) (fun c ps2 => ih c ps2) n.children seg ps1
      cases hE : tryParams (fun c ps2 => lookupNode c rest ps2) n.children seg ps1 with
      | mk r0 ps0 =>
        rw [hE] at htp
        rw [← htp]
        cases r0 with
        | some r => rfl
        | none =>
          cases hw : findChild n.children ['*'] with
          | none => rfl
          | some child =>
            by_cases hc : child.isWildcard = true ∧ child.route.isSome = true
            · simp [hc]
            · simp [hc]
    cases hf : findChild n.children seg with
    | none => exact htail ps
    | some child =>
      dsimp only
      have hch := ih child ps
      cases hE : lookupNode child rest ps with
      | mk r0 ps0 =>
        rw [hE] at hch
        rw [← hch]
        cases r0 with
        | some r => rfl
        | none => exact htail ps0

/-! ## Structural facts about `insert` -/

theorem insert_cons (n : Node) (s : Str) (ss : List Str) (route : Route) :
    n.insert (s :: ss) route =
      ⟨n.segment, n.route, n.paramName, n.isWildcard,
       setChild n.children s (((findChild n.children s).getD (newNode s)).insert ss route)⟩ := by
  cases ss <;> rfl

theorem insert_segment (n : Node) (segs : List Str) (route : Route) :
    (n.insert segs route).segment = n.segment := by
  cases segs <;> rfl

theorem insert_isWildcard (n : Node) (segs : List Str) (route : Route) :
    (n.insert segs route).isWildcard = n.isWildcard := by
  cases segs <;> rfl

theorem insert_route_nil (n : Node) (route : Route) :
    (n.insert [] route).route = some route := rfl

theorem insert_route_cons (n : Node) (s : Str) (ss : List Str) (route : Route) :
    (n.insert (s :: ss) route).route = n.route := by
  cases ss <;> rfl

theorem findChild_some_segment :
    ∀ (cs : List Node) (s : Str) (c : Node), findChild cs s = some c → c.segment = s := by
  intro cs
  induction cs with
  | nil => intro s c h; cases h
  | cons d ds ih =>
    intro s c h
    simp only [findChild] at h
    by_cases hd : d.segment = s
    · rw [if_pos hd] at h
      cases h
      exact hd
    · rw [if_neg hd] at h
      exact ih s c h

theorem childAt_segment (cs : List Node) (s : Str) :
    (((findChild cs s).getD (newNode s))).segment = s := by
  cases h : findChild cs s with
  | none => rfl
  | some c => exact findChild_some_segment cs s c h

theorem findChild_setChild_self :
    ∀ (cs : List Node) (s : Str) (c : Node), c.segment = s →
      findChild (setChild cs s c) s = some c := by
  intro cs
  induction cs with
  | nil => intro s c hc; simp [setChild, findChild, hc]
  | cons d ds ih =>
    intro s c hc
    simp only [setChild]
    by_cases hd : d.segment = s
    · rw [if_pos hd]
      simp [findChild, hc]
    · rw [if_neg hd]
      simp only [findChild, if_neg hd]
      exact ih s c hc

theorem findChild_setChild_ne :
    ∀ (cs : List Node) (s : Str) (c : Node) (k : Str), c.segment = s → k ≠ s →
      findChild (setChild cs s c) k = findChild cs k := by
  intro cs
  induction cs with
  | nil =>
    intro s c k hc hk
    simp only [setChild, findChild]
    rw [if_neg (by rw [hc]; exact fun h => hk h.symm)]
  | cons d ds ih =>
    intro s c k hc hk
    simp only [setChild]
    by_cases hd : d.segment = s
    · rw [if_pos hd]
      simp only [findChild]
      rw [if_neg (by rw [hc]; exact fun h => hk h.symm),
          if_neg (by rw [hd]; exact fun h => hk h.symm)]
    · rw [if_neg hd]
      simp only [findChild]
      by_cases hdk : d.segment = k
      · rw [if_pos hdk, if_pos hdk]
      · rw [if_neg hdk, if_neg hdk]
        exact ih s c k hc hk

theorem lookupRoute_newNode (s : Str) (path : List Str) :
    lookupRoute (newNode s) path = none := by
  cases path <;> rfl

/-! ## Insertion changes a lookup result only to the inserted route -/

/-- The parameter loop after `setChild`: the result is the old result or
the inserted route, provided every recursive lookup has that property. -/
theorem tryParamsRoute_setChild (rest : List Str) (route : Route) (ss : List Str)
    (hIH : ∀ m : Node,
      lookupRoute (m.insert ss route) rest = lookupRoute m rest ∨
      lookupRoute (m.insert ss route) rest = some route) :
    ∀ (cs : List Node) (s : Str),
      tryParamsRoute (fun c => lookupRoute c rest)
          (setChild cs s (((findChild cs s).getD (newNode s)).insert ss route))
        = tryParamsRoute (fun c => lookupRoute c rest) cs ∨
      tryParamsRoute (fun c => lookupRoute c rest)
          (setChild cs s (((findChild cs s).getD (newNode s)).insert ss route))
        = some route := by
  intro cs
  induction cs with
  | nil =>
    intro s
    simp only [setChild, findChild, Option.getD_none, tryParamsRoute]
    by_cases hp : isParamSeg ((newNode s).insert ss route).segment = true
    · rw [if_pos hp]
      rcases hIH (newNode s) with h | h
      · rw [h, lookupRoute_newNode]
        left
        rfl
      · rw [h]
        right
        rfl
    · rw [if_neg hp]
      left
      rfl
  | cons d ds ih =>
    intro s
    by_cases hd : d.segment = s
    · have hfc : findChild (d :: ds) s = some d := by simp [findChild, hd]
      have hsc : setChild (d :: ds) s (((findChild (d :: ds) s).getD (newNode s)).insert ss route)
          = (d.insert ss route) :: ds := by
        simp [setChild, hd, hfc]
      rw [hsc]
      simp only [tryParamsRoute, insert_segment]
      by_cases hp : isParamSeg d.segment = true
      · rw [if_pos hp, if_pos hp]
        rcases hIH d with h | h
        · rw [h]
          left
          rfl
        · rw [h]
          right
          rfl
      · rw [if_neg hp, if_neg hp]
        left
        rfl
    · have hfc : findChild (d :: ds) s = findChild ds s := by simp [findChild, hd]
      have hsc : setChild (d :: ds) s (((findChild (d :: ds) s).getD (newNode s)).insert ss route)
          = d :: setChild ds s (((findChild ds s).getD (newNode s)).insert ss route) := by
        simp [setChild, hd, hfc]
      rw [hsc]
      simp only [tryParamsRoute]
      by_cases hp : isParamSeg d.segment = true
      · rw [if_pos hp, if_pos hp]
        cases hlr : lookupRoute d rest with
        | some r =>
          left
          rfl
        | none => exact ih s
      · rw [if_neg hp, if_neg hp]
        exact ih s

/-- The three-stage combination (exact, parameters, wildcard) preserves
"old result or the inserted route". -/
theorem chain_or (E Ex P Px W Wx : Option Route) (route : Route)
    (hE : Ex = E ∨ Ex = some route) (hP : Px = P ∨ Px = some route)
    (hW : Wx = W ∨ Wx = some route) :
    chainOpt Ex Px Wx = chainOpt E P W ∨ chainOpt Ex Px Wx = some route := by
  rcases hE with hE | hE <;> rcases hP with hP | hP <;> rcases hW with hW | hW <;>
    rw [hE, hP, hW] <;> cases E <;> cases P <;> simp [chainOpt]

/-- Inserting a route changes the result of any `lookupRoute` either not
at all or to the newly inserted route. -/
theorem lookupRoute_insert :
    ∀ (path : List Str) (n : Node) (segs : List Str) (route : Route),
      lookupRoute (n.insert segs route) path = lookupRoute n path ∨
      lookupRoute (n.insert segs route) path = some route := by
  intro path
  induction path with
  | nil =>
    intro n segs route
    cases segs with
    | nil =>
      right
      rfl
    | cons s ss =>
      obtain ⟨nseg, nroute, npar, nwild, ncs⟩ := n
      rw [insert_cons]
      simp only [Node.segment, Node.route, Node.paramName, Node.isWildcard,
        Node.children, lookupRoute]
      set c' := ((findChild ncs s).getD (newNode s)).insert ss route with hc'
      have hc'seg : c'.segment = s := by
        rw [hc', insert_segment, childAt_segment]
      cases nroute with
      | some r => left; rfl
      | none =>
        by_cases hs : s = ['*']
        · subst hs
          rw [findChild_setChild_self ncs ['*'] c' hc'seg]
          cases ss with
          | nil =>
            have hr : c'.route = some route := insert_route_nil _ _
            right
            show c'.route = some route
            exact hr
          | cons s2 ss2 =>
            have hr : c'.route = ((findChild ncs ['*']).getD (newNode ['*'])).route :=
              insert_route_cons _ _ _ _
            left
            cases hfw : findChild ncs ['*'] with
            | some d =>
              rw [hfw, Option.getD_some] at hr
              show c'.route = d.route
              exact hr
            | none =>
              rw [hfw, Option.getD_none] at hr
              show c'.route = none
              exact hr.trans rfl
        · rw [findChild_setChild_ne ncs s c' ['*'] hc'seg (fun h => hs h.symm)]
          left
          rfl
  | cons seg rest ih =>
    intro n segs route
    cases segs with
    | nil =>
      left
      obtain ⟨nseg, nroute, npar, nwild, ncs⟩ := n
      rfl
    | cons s ss =>
      obtain ⟨nseg, nroute, npar, nwild, ncs⟩ := n
      rw [insert_cons]
      simp only [Node.segment, Node.route, Node.paramName, Node.isWildcard,
        Node.children, lookupRoute]
      set c' := ((findChild ncs s).getD (newNode s)).insert ss route with hc'
      have hc'seg : c'.segment = s := by
        rw [hc', insert_segment, childAt_segment]
      have hE : (match findChild (setChild ncs s c') seg with
                 | some child => lookupRoute child rest
                 | none => (none : Option Route))
              = (match findChild ncs seg with
                 | some child => lookupRoute child rest
                 | none => (none : Option Route)) ∨
                (match findChild (setChild ncs s c') seg with
                 | some child => lookupRoute child rest
                 | none => (none : Option Route)) = some route := by
        by_cases hseg : seg = s
        · subst hseg
          rw [findChild_setChild_self ncs seg c' hc'seg]
          cases hfc : findChild ncs seg with
          | some d =>
            have hcd : c' = d.insert ss route := by rw [hc', hfc]; rfl
            rw [hcd]
            show lookupRoute (d.insert ss route) rest = lookupRoute d rest ∨
              lookupRoute (d.insert ss route) rest = some route
            exact ih d ss route
          | none =>
            have hcd : c' = (newNode seg).insert ss route := by rw [hc', hfc]; rfl
            rw [hcd]
            rcases ih (newNode seg) ss route with h | h
            · left
              show lookupRoute ((newNode seg).insert ss route) rest = (none : Option Route)
              rw [h, lookupRoute_newNode]
            · right
              show lookupRoute ((newNode seg).insert ss route) rest = some route
              exact h
        · rw [findChild_setChild_ne ncs s c' seg hc'seg hseg]
          left
          rfl
      have hP := tryParamsRoute_setChild rest route ss (fun m => ih m ss route) ncs s
      rw [← hc'] at hP
      have hW : (match findChild (setChild ncs s c') ['*'] with
                 | some child =>
                   if child.isWildcard ∧ child.route.isSome then child.route else none
                 | none => (none : Option Route))
              = (match findChild ncs ['*'] with
                 | some child =>
                   if child.isWildcard ∧ child.route.isSome then child.route else none
                 | none => (none : Option Route)) ∨
                (match findChild (setChild ncs s c') ['*'] with
                 | some child =>
                   if child.isWildcard ∧ child.route.isSome then child.route else none
                 | none => (none : Option Route)) = some route := by
        by_cases hs : s = ['*']
        · subst hs
          rw [findChild_setChild_self ncs ['*'] c' hc'seg]
          have hwild : c'.isWildcard
              = (((findChild ncs ['*']).getD (newNode ['*']))).isWildcard := by
            rw [hc', insert_isWildcard]
          cases ss with
          | nil =>
            have hroute : c'.route = some route := insert_route_nil _ _
            by_cases hcw : c'.isWildcard = true
            · right
              show (if c'.isWildcard ∧ c'.route.isSome then c'.route else none)
                = some route
              simp [hcw, hroute]
            · have hcw' : c'.isWildcard = false := by
                simpa using hcw
              cases hfw : findChild ncs ['*'] with
              | some d =>
                rw [hfw, Option.getD_some] at hwild
                have hdw : d.isWildcard = false := by rw [← hwild, hcw']
                left
                show (if c'.isWildcard ∧ c'.route.isSome then c'.route else none)
                  = (if d.isWildcard ∧ d.route.isSome then d.route else none)
                simp [hcw', hdw]
              | none =>
                rw [hfw, Option.getD_none] at hwild
                have hnw : (newNode ['*']).isWildcard = true := rfl
                rw [hnw] at hwild
                rw [hwild] at hcw'
                cases hcw'
          | cons s2 ss2 =>
            have hroute : c'.route
                = (((findChild ncs ['*']).getD (newNode ['*']))).route :=
              insert_route_cons _ _ _ _
            cases hfw : findChild ncs ['*'] with
            | some d =>
              rw [hfw, Option.getD_some] at hroute hwild
              left
              show (if c'.isWildcard ∧ c'.route.isSome then c'.route else none)
                = (if d.isWildcard ∧ d.route.isSome then d.route else none)
              rw [hroute, hwild]
            | none =>
              rw [hfw, Option.getD_none] at hroute
              have hnn : c'.route = none := hroute.trans rfl
              left
              show (if c'.isWildcard ∧ c'.route.isSome then c'.route else none)
                = (none : Option Route)
              simp [hnn]
        · rw [findChild_setChild_ne ncs s c' ['*'] hc'seg (fun h => hs h.symm)]
          left
          rfl
      exact chain_or _ _ _ _ _ _ route hE hP hW

/-! ## Lifting to the Router level -/

theorem findHost_setHost_self :
    ∀ (hs : List (Str × Node)) (h : Str) (n : Node),
      findHost (setHost hs h n) h = some n := by
  intro hs
  induction hs with
  | nil => intro h n; simp [setHost, findHost]
  | cons p ps ih =>
    intro h n
    obtain ⟨k, m⟩ := p
    simp only [setHost]
    by_cases hk : k = h
    · rw [if_pos hk]
      simp [findHost]
    · rw [if_neg hk]
      simp only [findHost, if_neg hk]
      exact ih h n

theorem findHost_setHost_ne :
    ∀ (hs : List (Str × Node)) (h : Str) (n : Node) (k : Str), k ≠ h →
      findHost (setHost hs h n) k = findHost hs k := by
  intro hs
  induction hs with
  | nil =>
    intro h n k hk
    simp only [setHost, findHost]
    rw [if_neg (fun hc => hk hc.symm)]
  | cons p ps ih =>
    intro h n k hk
    obtain ⟨k0, m⟩ := p
    simp only [setHost]
    by_cases hk0 : k0 = h
    · rw [if_pos hk0]
      simp only [findHost]
      rw [if_neg (fun hc => hk hc.symm), if_neg (by rw [hk0]; exact fun hc => hk hc.symm)]
    · rw [if_neg hk0]
      simp only [findHost]
      by_cases hkk : k0 = k
      · rw [if_pos hkk, if_pos hkk]
      · rw [if_neg hkk, if_neg hkk]
        exact ih h n k hk

theorem lookupRoute_emptyRoot (path : List Str) :
    lookupRoute ⟨[], none, [], false, []⟩ path = none := by
  cases path <;> rfl

/-- `Router.Lookup`, route component: agreement with `lookupRoute`. -/
theorem router_lookup_fst (r : Router) (qh qp : Str) :
    (r.lookup qh qp).map Prod.fst =
      (match findHost r.hosts (normalizeHost qh) with
       | none => none
       | some root => lookupRoute root (pathToSegs (normalizePfx qp))) := by
  rw [Router.lookup]
  cases hf : findHost r.hosts (normalizeHost qh) with
  | none => rfl
  | some root =>
    dsimp only
    have hfst := lookupNode_fst (pathToSegs (normalizePfx qp)) root []
    cases hE : lookupNode root (pathToSegs (normalizePfx qp)) [] with
    | mk r0 ps0 =>
      rw [hE] at hfst
      rw [← hfst]
      cases r0 <;> rfl

/-- C3 (amended).  For any router `r` and any `Add` producing `r'`, every
lookup that succeeded on `r` still succeeds on `r'`, and the ROUTE it
returns is either the same route or the newly inserted route.  Nothing
more survives of the original claim: the inserted route can win even when
the insertion did not replace that exact terminal node (inserting `/x`
next to `/*` rebinds the lookup of `/x` while the `/*` terminal survives),
and the parameter bindings are not preserved even when the route is
unchanged — the in-place parameter-map mutation of a deeper branch that
fails can erase a binding made by an outer parameter segment before the
wildcard fallback returns the old route (see the counterexample's second
half).  So only the route component is quantified here. -/
theorem router_add_lookup_spec (r : Router) (host path : Str) (svcs : List Str)
    (pid : Nat) (qh qp : Str) :
    (((r.add host path svcs pid).lookup qh qp).map Prod.fst
        = ((r.lookup qh qp)).map Prod.fst ∨
     ((r.add host path svcs pid).lookup qh qp).map Prod.fst
        = some ⟨path, pid⟩) ∧
    ((r.lookup qh qp).isSome = true →
      ((r.add host path svcs pid).lookup qh qp).isSome = true) := by
  have main : ((r.add host path svcs pid).lookup qh qp).map Prod.fst
        = ((r.lookup qh qp)).map Prod.fst ∨
      ((r.add host path svcs pid).lookup qh qp).map Prod.fst
        = some ⟨path, pid⟩ := by
    by_cases htriv : host = [] ∨ svcs = []
    · left
      rw [Router.add, if_pos htriv]
    · rw [router_lookup_fst, router_lookup_fst]
      have hadd : (r.add host path svcs pid).hosts =
          setHost r.hosts (normalizeHost host)
            (((findHost r.hosts (normalizeHost host)).getD
              ⟨[], none, [], false, []⟩).insert
                (pathToSegs (normalizePfx path)) ⟨path, pid⟩) := by
        rw [Router.add, if_neg htriv]
      rw [hadd]
      by_cases hq : normalizeHost qh = normalizeHost host
      · rw [hq, findHost_setHost_self]
        cases hf : findHost r.hosts (normalizeHost host) with
        | some root =>
          rw [Option.getD_some]
          exact lookupRoute_insert (pathToSegs (normalizePfx qp)) root
            (pathToSegs (normalizePfx path)) ⟨path, pid⟩
        | none =>
          rw [Option.getD_none]
          rcases lookupRoute_insert (pathToSegs (normalizePfx qp))
              ⟨[], none, [], false, []⟩ (pathToSegs (normalizePfx path))
              ⟨path, pid⟩ with h | h
          · left
            show lookupRoute ((⟨[], none, [], false, []⟩ : Node).insert
              (pathToSegs (normalizePfx path)) ⟨path, pid⟩)
              (pathToSegs (normalizePfx qp)) = (none : Option Route)
            rw [h, lookupRoute_emptyRoot]
          · right
            show lookupRoute ((⟨[], none, [], false, []⟩ : Node).insert
              (pathToSegs (normalizePfx path)) ⟨path, pid⟩)
              (pathToSegs (normalizePfx qp)) = some ⟨path, pid⟩
            exact h
      · rw [findHost_setHost_ne r.hosts (normalizeHost host) _ (normalizeHost qh) hq]
        left
        rfl
  refine ⟨main, fun hsome => ?_⟩
  have hmap : ∀ (o : Option (Route × Params)),
      (Option.map Prod.fst o).isSome = o.isSome := by
    intro o; cases o <;> rfl
  rcases main with h | h
  · rw [← hmap, h, hmap]
    exact hsome
  · rw [← hmap, h]
    rfl

/-- C3 counterexample, both halves.  Route half: with `/*` registered
under host `h`, the lookup of `/x` succeeds with the `/*` route; inserting
`/x` (a different, new terminal — the `/*` terminal is not replaced, as
the unchanged lookup of `/y` shows) changes that lookup's result to the
new route.  Bindings half: with `/:a/*` registered, the lookup of `/v/w`
returns the `/:a/*` route with the binding `a ↦ v`; inserting `/:a/:a/z`
(again not replacing that terminal) leaves the lookup on the same `/:a/*`
route but with empty bindings — the failed inner `:a` branch overwrote and
then deleted the outer `a` binding before the wildcard fallback fired. -/
theorem router_insert_changes_other_lookup :
    rC3a.lookup ['h'] ['/', 'x'] = some (⟨['/', '*'], 0⟩, []) ∧
    rC3b.lookup ['h'] ['/', 'x'] = some (⟨['/', 'x'], 1⟩, []) ∧
    rC3b.lookup ['h'] ['/', 'y'] = some (⟨['/', '*'], 0⟩, []) ∧
    rP1.lookup ['h'] ['/', 'v', '/', 'w']
      = some (⟨['/', ':', 'a', '/', '*'], 0⟩, [(['a'], ['v'])]) ∧
    rP2.lookup ['h'] ['/', 'v', '/', 'w']
      = some (⟨['/', ':', 'a', '/', '*'], 0⟩, []) :=
  ⟨rfl, rfl, rfl, rfl, rfl⟩

theorem router_add_lookup_spec_witness :
    ((rC3a.add ['h'] ['/', 'x'] [['u']] 1).lookup ['h'] ['/', 'y']).isSome = true :=
  (router_add_lookup_spec rC3a ['h'] ['/', 'x'] [['u']] 1 ['h'] ['/', 'y']).2
    (by decide)

/-! ## C2: lookup order and no ancestor fallback -/

/-- C2.  At every node the lookup tries the exact literal child first; on
its failure the parameter children are tried in (deterministic) order with
backtracking — a parameter binding made for a branch that fails deeper is
removed again; the wildcard child is consulted last and only answers when
it is present AND holds a terminal route; the node's own route is never
consulted for a non-empty remaining path (no ancestor fallback), and
concretely a router with only `/api` registered does not match `/api/v1`. -/
theorem lookup_order_spec (n : Node) (seg : Str) (rest : List Str) (ps : Params) :
    (∀ (c : Node) (r : Route) (ps1 : Params),
      findChild n.children seg = some c → lookupNode c rest ps = (some r, ps1) →
      lookupNode n (seg :: rest) ps = (some r, ps1)) ∧
    (∀ (c : Node) (ps1 : Params) (r : Route) (ps2 : Params),
      findChild n.children seg = some c → lookupNode c rest ps = (none, ps1) →
      tryParams (fun m q => lookupNode m rest q) n.children seg ps1 = (some r, ps2) →
      lookupNode n (seg :: rest) ps = (some r, ps2)) ∧
    (∀ (c : Node) (cs : List Node) (r : Route) (q ps3 : Params),
      isParamSeg c.segment = true →
      lookupNode c rest (insertParam q c.paramName seg) = (some r, ps3) →
      tryParams (fun m p => lookupNode m rest p) (c :: cs) seg q = (some r, ps3)) ∧
    (∀ (c : Node) (cs : List Node) (q ps3 : Params),
      isParamSeg c.segment = true →
      lookupNode c rest (insertParam q c.paramName seg) = (none, ps3) →
      tryParams (fun m p => lookupNode m rest p) (c :: cs) seg q
        = tryParams (fun m p => lookupNode m rest p) cs seg
            (eraseParam ps3 c.paramName)) ∧
    (∀ (c : Node) (ps1 ps2 : Params),
      findChild n.children seg = some c → lookupNode c rest ps = (none, ps1) →
      tryParams (fun m q => lookupNode m rest q) n.children seg ps1 = (none, ps2) →
      lookupNode n (seg :: rest) ps =
        (match findChild n.children ['*'] with
         | some w => if w.isWildcard ∧ w.route.isSome then (w.route, ps2)
                     else (none, ps2)
         | none => (none, ps2))) ∧
    (∀ ps2 : Params,
      findChild n.children seg = none →
      tryParams (fun m q => lookupNode m rest q) n.children seg ps = (none, ps2) →
      lookupNode n (seg :: rest) ps =
        (match findChild n.children ['*'] with
         | some w => if w.isWildcard ∧ w.route.isSome then (w.route, ps2)
                     else (none, ps2)
         | none => (none, ps2))) ∧
    (∀ (r1 r2 : Option Route) (npar : Str) (nwild : Bool),
      lookupNode ⟨n.segment, r1, npar, nwild, n.children⟩ (seg :: rest) ps
        = lookupNode ⟨n.segment, r2, npar, nwild, n.children⟩ (seg :: rest) ps) ∧
    ((Router.new.add ['e'] ['/', 'a', 'p', 'i'] [['u']] 0).lookup ['e']
        ['/', 'a', 'p', 'i', '/', 'v', '1'] = none ∧
     (Router.new.add ['e'] ['/', 'a', 'p', 'i'] [['u']] 0).lookup ['e']
        ['/', 'a', 'p', 'i']
       = some (⟨['/', 'a', 'p', 'i'], 0⟩, [])) := by
  refine ⟨?_, ?_, ?_, ?_, ?_, ?_, ?_, rfl, rfl⟩
  · intro c r ps1 hfc hlk
    simp only [lookupNode, hfc, hlk]
  · intro c ps1 r ps2 hfc hlk htp
    simp only [lookupNode, hfc, hlk, htp]
  · intro c cs r q ps3 hp hlk
    simp only [tryParams, hp, if_true, hlk]
  · intro c cs q ps3 hp hlk
    simp only [tryParams, hp, if_true, hlk]
  · intro c ps1 ps2 hfc hlk htp
    simp only [lookupNode, hfc, hlk, htp]
  · intro ps2 hfc htp
    simp only [lookupNode, hfc, htp]
  · intro r1 r2 npar nwild
    rfl

theorem lookup_order_spec_witness :
    lookupNode nC2 [['x']] [] = (some ⟨['p'], 3⟩, []) :=
  (lookup_order_spec nC2 ['x'] [] []).1 ⟨['x'], some ⟨['p'], 3⟩, [], false, []⟩
    ⟨['p'], 3⟩ [] rfl rfl

end router

/-! ## C7: prefix stripping never yields an empty forwarded path -/

theorem hasPfx_slash_cons (s : Str) : hasPfx ('/' :: s) ['/'] = true := by
  simp [hasPfx, List.isPrefixOf]

/-- C7.  For every request path `p` and every route prefix, the forwarded
path (`strip_prefix` together with its empty-result collapse at the call
site in `Proxy.ServeHTTP`) is a non-empty string, and the root collapses
to `/`: for a prefix ending in `/*`, `stripPrefix` itself removes the part
before `/*`, re-adds a missing leading `/`, collapses `""`/`"/"` to `/`
(so it is already non-empty and `/`-rooted); for any other prefix the
exact prefix is removed and the empty remainder becomes `/`. -/
theorem stripPfx_spec (p pre : Str) :
    servePath p pre ≠ [] ∧
    (hasSfx pre ['/', '*'] = true →
      stripPfx p pre ≠ [] ∧
      hasPfx (stripPfx p pre) ['/'] = true ∧
      servePath p pre = stripPfx p pre ∧
      ((trimPfx p (trimSfx pre ['/', '*']) = [] ∨
        trimPfx p (trimSfx pre ['/', '*']) = ['/']) → stripPfx p pre = ['/'])) ∧
    (hasSfx pre ['/', '*'] = false →
      servePath p pre =
        (if trimPfx p pre = [] then ['/'] else trimPfx p pre)) := by
  by_cases hw : hasSfx pre ['/', '*'] = true
  · have hstrip : stripPfx p pre ≠ [] ∧ hasPfx (stripPfx p pre) ['/'] = true ∧
        ((trimPfx p (trimSfx pre ['/', '*']) = [] ∨
          trimPfx p (trimSfx pre ['/', '*']) = ['/']) → stripPfx p pre = ['/']) := by
      simp only [stripPfx, hw, if_true]
      set st := trimPfx p (trimSfx pre ['/', '*']) with hst
      by_cases h0 : st = [] ∨ st = ['/']
      · simp [h0, hasPfx_slash_cons]
      · rw [if_neg h0]
        have hne : st ≠ [] := fun hc => h0 (Or.inl hc)
        by_cases h1 : hasPfx st ['/'] = true
        · rw [if_neg (by simp [h1])]
          exact ⟨hne, h1, fun hc => absurd hc h0⟩
        · rw [if_pos (by simp [h1])]
          exact ⟨by simp, hasPfx_slash_cons st, fun hc => absurd hc h0⟩
    refine ⟨?_, fun _ => ⟨hstrip.1, hstrip.2.1, ?_, hstrip.2.2⟩, fun hc => by simp [hw] at hc⟩
    · simp only [servePath]
      simp [hstrip.1]
    · simp only [servePath]
      simp [hstrip.1]
  · simp only [Bool.not_eq_true] at hw
    refine ⟨?_, fun hc => by simp [hw] at hc, fun _ => ?_⟩
    · simp only [servePath, stripPfx, hw, Bool.false_eq_true, if_false]
      by_cases h0 : trimPfx p pre = [] <;> simp [h0]
    · simp only [servePath, stripPfx, hw, Bool.false_eq_true, if_false]

/-! ## C4: Closed-state failure accounting and the transition to Open -/

/-- C4.  In the Closed state, `RecordFailure` leaves the breaker Closed
(only the consecutive-failure count grows) while the count stays below the
failure threshold; at the threshold it transitions to Open, stamps the
open time, clears both counters, and doubles the current open timeout
capped at ten times the base timeout; and the resulting Open breaker
denies every `Allow` until the open timeout has elapsed. -/
theorem recordFailure_closed_spec (b : circuit.Breaker) (now : Int)
    (hClosed : b.state = .Closed)
    (hto : 0 < b.openTimeout) (hbase : 0 < b.cfg.timeout) :
    (b.failures + 1 < b.cfg.failureThreshold →
      circuit.recordFailure now b = { b with failures := b.failures + 1 }) ∧
    (b.cfg.failureThreshold ≤ b.failures + 1 →
      (circuit.recordFailure now b).state = .Open ∧
      (circuit.recordFailure now b).openTime = now ∧
      (circuit.recordFailure now b).failures = 0 ∧
      (circuit.recordFailure now b).successes = 0 ∧
      (circuit.recordFailure now b).halfOpenInFlight = 0 ∧
      (circuit.recordFailure now b).openTimeout =
        min (b.openTimeout * 2) (b.cfg.timeout * 10) ∧
      ∀ later : Int, later - now ≤ (circuit.recordFailure now b).openTimeout →
        circuit.allow later (circuit.recordFailure now b) =
          (false, circuit.recordFailure now b)) := by
  simp only [circuit.recordFailure, hClosed]
  constructor
  · intro hlt
    rw [if_neg (by simpa using Nat.not_le_of_lt hlt)]
  · intro hge
    rw [if_pos (by simpa using hge)]
    have hbase' : ¬ b.cfg.timeout ≤ 0 := not_le_of_lt hbase
    have hto' : ¬ b.openTimeout ≤ 0 := not_le_of_lt hto
    simp only [circuit.transitionToOpen, circuit.adjustOpenTimeout, if_neg hbase',
      if_neg hto', if_true]
    have htopos : 0 < min (b.openTimeout * 2) (b.cfg.timeout * 10) :=
      lt_min (by omega) (by omega)
    refine ⟨trivial, trivial, trivial, trivial, trivial, trivial, ?_⟩
    intro later hlater
    simp only [circuit.allow, circuit.checkAndTransitionOpen]
    rw [if_neg (show ¬ min (b.openTimeout * 2) (b.cfg.timeout * 10) ≤ 0 from
          not_le_of_lt htopos)]
    rw [if_pos (show later - now ≤ min (b.openTimeout * 2) (b.cfg.timeout * 10) from
          hlater)]

theorem recordFailure_closed_spec_witness :
    circuit.recordFailure 5 bC4 = { bC4 with failures := 1 } ∧
    (circuit.recordFailure 5 { bC4 with failures := 1 }).state = .Open ∧
    circuit.allow 10 (circuit.recordFailure 5 { bC4 with failures := 1 }) =
      (false, circuit.recordFailure 5 { bC4 with failures := 1 }) :=
  ⟨(recordFailure_closed_spec bC4 5 rfl (by decide) (by decide)).1 (by decide),
   ((recordFailure_closed_spec { bC4 with failures := 1 } 5 rfl (by decide)
      (by decide)).2 (by decide)).1,
   (((recordFailure_closed_spec { bC4 with failures := 1 } 5 rfl (by decide)
      (by decide)).2 (by decide)).2.2.2.2.2.2) 10 (by decide)⟩

/-! ## C5: the half-open in-flight counter -/

/-- C5.  The bound `0 ≤ halfOpenInFlight ≤ max_half_open` is broken by the
code: a probe success received in the Half-Open state releases a slot that
was never acquired, and the `uint32` decrement wraps the in-flight counter
to `2^32 - 1`, after which every half-open trial is denied.  Sequence:
`failure_threshold = 1, success_threshold = 3, max_half_open = 3`; one
failure (Closed→Open), one probe success (Open→Half-Open, in-flight 0),
one more probe success (release on in-flight 0). -/
theorem halfOpenInFlight_overflow :
    bC5.state = circuit.BState.HalfOpen ∧
    bC5.cfg.maxHalfOpenRequests = 3 ∧
    bC5.halfOpenInFlight = 4294967295 ∧
    (circuit.allow 0 bC5).1 = false := by decide

/-! ## C10: freshly added backends -/

open backendpool in
/-- C10.  Every backend appended by `Pool.Add` starts healthy, not
draining, with all metadata counters (and the WRR temp-weight) at zero,
and with its breaker Closed, counters zero, and current open timeout equal
to the defaulted base timeout — hence it passes `Pool.Next`'s eligibility
filter (healthy, not draining, `Allow` true) at any time before any probe
has run. -/
theorem pool_add_fresh_backend_spec (p : Pool) (id u : Str) (w : Nat) (now : Int) :
    (p.add id u w).backends =
      p.backends ++ [newBackend id u w
        ⟨p.config.circuitFailureThreshold, p.config.circuitSuccessThreshold,
         p.config.circuitTimeout * circuit.nanosPerSecond,
         p.config.circuitMaxHalfOpenRequests⟩] ∧
    ∀ cbCfg : circuit.Config,
      (newBackend id u w cbCfg).healthy = true ∧
      (newBackend id u w cbCfg).draining = false ∧
      (newBackend id u w cbCfg).meta = ⟨0, 0, 0, 0, 0, 0, 0, 0⟩ ∧
      (newBackend id u w cbCfg).circuit.state = .Closed ∧
      (newBackend id u w cbCfg).circuit.failures = 0 ∧
      (newBackend id u w cbCfg).circuit.successes = 0 ∧
      (newBackend id u w cbCfg).circuit.halfOpenInFlight = 0 ∧
      (newBackend id u w cbCfg).circuit.openTimeout =
        (newBackend id u w cbCfg).circuit.cfg.timeout ∧
      (cbCfg.timeout = 0 →
        (newBackend id u w cbCfg).circuit.cfg.timeout = 10 * circuit.nanosPerSecond) ∧
      circuit.allow now (newBackend id u w cbCfg).circuit =
        (true, (newBackend id u w cbCfg).circuit) := by
  refine ⟨rfl, fun cbCfg => ⟨rfl, rfl, rfl, rfl, rfl, rfl, rfl, rfl, ?_, rfl⟩⟩
  intro h0
  simp only [newBackend, circuit.new]
  split <;> split <;> simp_all <;> split <;> simp_all

/-! ## C6: traffic-path success never flips the health flags -/

open backendpool in
/-- C6.  `Pool.RecordSuccess` increments the total-request counter, stamps
the last-success timestamp, and forwards to the breaker's `RecordSuccess`;
every other field — in particular the healthy and draining flags and all
failure/probe counters — is unchanged, in every state. -/
theorem pool_recordSuccess_frame (now : Int) (b : Backend) :
    (Pool.recordSuccess now b).healthy = b.healthy ∧
    (Pool.recordSuccess now b).draining = b.draining ∧
    (Pool.recordSuccess now b).meta.totalRequests = b.meta.totalRequests + 1 ∧
    (Pool.recordSuccess now b).meta.lastSuccess = now ∧
    (Pool.recordSuccess now b).circuit = circuit.recordSuccess b.circuit ∧
    (Pool.recordSuccess now b).meta.passiveFailCount = b.meta.passiveFailCount ∧
    (Pool.recordSuccess now b).meta.probeFailCount = b.meta.probeFailCount ∧
    (Pool.recordSuccess now b).meta.probeSuccessCount = b.meta.probeSuccessCount ∧
    (Pool.recordSuccess now b).meta.lastFailure = b.meta.lastFailure ∧
    (Pool.recordSuccess now b).meta.activeConns = b.meta.activeConns ∧
    (Pool.recordSuccess now b).id = b.id ∧
    (Pool.recordSuccess now b).weight = b.weight :=
  ⟨rfl, rfl, rfl, rfl, rfl, rfl, rfl, rfl, rfl, rfl, rfl, rfl⟩

/-! ## C9: waiting for a backend to drain -/

namespace backendpool

theorem drainScan_snd (id : Str) (items : List Backend) :
    (drainScan id items).2 = true ↔
      ∃ b ∈ items, b.id = id ∧ b.draining = true ∧ b.meta.activeConns = 0 := by
  induction items with
  | nil => simp [drainScan]
  | cons b bs ih =>
    by_cases hb : b.id = id ∧ b.draining = true
    · by_cases ha : b.meta.activeConns = 0
      · simp [drainScan, hb, ha]
      · simp only [drainScan, if_pos (by exact_mod_cast hb), if_neg ha]
        simp only [ih, List.mem_cons]
        constructor
        · rintro ⟨c, hc, h⟩; exact ⟨c, Or.inr hc, h⟩
        · rintro ⟨c, hc | hc, h⟩
          · subst hc; exact absurd h.2.2 ha
          · exact ⟨c, hc, h⟩
    · simp only [drainScan, if_neg hb, ih, List.mem_cons]
      constructor
      · rintro ⟨c, hc, h⟩; exact ⟨c, Or.inr hc, h⟩
      · rintro ⟨c, hc | hc, h⟩
        · subst hc; exact absurd ⟨h.1, h.2.1⟩ hb
        · exact ⟨c, hc, h⟩

theorem drainScan_fst (id : Str) (items : List Backend) :
    (drainScan id items).1 = true ↔ ∃ b ∈ items, b.id = id ∧ b.draining = true := by
  induction items with
  | nil => simp [drainScan]
  | cons b bs ih =>
    by_cases hb : b.id = id ∧ b.draining = true
    · by_cases ha : b.meta.activeConns = 0
      · simp [drainScan, hb, ha]
      · simp only [drainScan, if_pos (by exact_mod_cast hb), if_neg ha]
        simp [hb]
    · simp only [drainScan, if_neg hb, ih, List.mem_cons]
      constructor
      · rintro ⟨c, hc, h⟩; exact ⟨c, Or.inr hc, h⟩
      · rintro ⟨c, hc | hc, h⟩
        · subst hc; exact absurd h hb
        · exact ⟨c, hc, h⟩

/-- C9 (amended).  `WaitForDrain` polls and returns true as soon as a
snapshot holds a backend with the given id that is draining and has zero
active connections; it returns false as soon as a snapshot holds no
draining backend with the id (in particular when the backend has been
removed, but also when it is present and merely not draining); and it
returns false when the polls before the deadline are exhausted.  Mere
presence with zero active connections is not sufficient: the draining flag
must also be set (see the counterexample). -/
theorem waitForDrain_spec (id : Str) (items : List Backend)
    (snaps : List (List Backend)) :
    ((∃ b ∈ items, b.id = id ∧ b.draining = true ∧ b.meta.activeConns = 0) →
      waitForDrain id (items :: snaps) = true) ∧
    ((∀ b ∈ items, ¬(b.id = id ∧ b.draining = true)) →
      waitForDrain id (items :: snaps) = false) ∧
    waitForDrain id [] = false := by
  refine ⟨fun hex => ?_, fun hall => ?_, rfl⟩
  · have hs : (drainScan id items).2 = true := (drainScan_snd id items).2 hex
    simp [waitForDrain, hs]
  · have hf : (drainScan id items).1 ≠ true := by
      intro hc
      obtain ⟨b, hb, h⟩ := (drainScan_fst id items).1 hc
      exact hall b hb h
    have hs : (drainScan id items).2 ≠ true := by
      intro hc
      obtain ⟨b, hb, h⟩ := (drainScan_snd id items).1 hc
      exact hall b hb ⟨h.1, h.2.1⟩
    simp [waitForDrain, hs, hf]

/-- C9 counterexample: a backend that is present in every snapshot with
zero active connections, but whose draining flag is clear, makes
`WaitForDrain` return false immediately — presence with zero active
connections does not suffice. -/
theorem waitForDrain_presence_not_sufficient :
    bDrain.id = ['x'] ∧ bDrain.meta.activeConns = 0 ∧
    waitForDrain ['x'] [[bDrain], [bDrain]] = false := by decide

theorem waitForDrain_spec_witness :
    waitForDrain ['x'] [[{ bDrain with draining := true }]] = true :=
  (waitForDrain_spec ['x'] [{ bDrain with draining := true }] []).1
    ⟨{ bDrain with draining := true }, by decide, by decide⟩

end backendpool

/-! ## C1: backend selection filters by health, draining, and the breaker -/

namespace backendpool

theorem nextLoop_snd (now : Int) (bs : List Backend) :
    (nextLoop now bs).2 =
      (bs.filter (eligible now)).map
        (fun b => { b with circuit := (circuit.allow now b.circuit).2 }) := by
  induction bs with
  | nil => rfl
  | cons b rest ih =>
    simp only [nextLoop]
    by_cases hh : ¬ b.healthy = true ∨ b.draining = true
    · have he : eligible now b = false := by
        rcases hh with h | h <;> simp [eligible] <;> simp_all
      rw [if_pos hh]
      simp [ih, List.filter_cons, he]
    · rw [if_neg hh]
      push_neg at hh
      by_cases hok : (circuit.allow now b.circuit).1 = true
      · have he : eligible now b = true := by simp [eligible, hh.1, hh.2, hok]
        simp [ih, List.filter_cons, he, hok]
      · have hok' : (circuit.allow now b.circuit).1 = false := by simpa using hok
        have he : eligible now b = false := by simp [eligible, hok']
        simp [ih, List.filter_cons, he, hok']

theorem nextLoop_fst (now : Int) (bs : List Backend) :
    (nextLoop now bs).1 =
      bs.map (fun b =>
        if b.healthy && ! b.draining
        then { b with circuit := (circuit.allow now b.circuit).2 } else b) := by
  induction bs with
  | nil => rfl
  | cons b rest ih =>
    simp only [nextLoop]
    by_cases hh : ¬ b.healthy = true ∨ b.draining = true
    · have hb : (b.healthy && ! b.draining) = false := by
        rcases hh with h | h <;> simp_all
      rw [if_pos hh]
      simp only [ih, List.map_cons, Prod.fst]
      rw [if_neg (by simp [hb])]
    · rw [if_neg hh]
      push_neg at hh
      have hb : (b.healthy && ! b.draining) = true := by simp [hh.1, hh.2]
      simp only [ih, List.map_cons, Prod.fst]
      rw [if_pos hb]

/-- C1.  `Pool.Next` returns no backend exactly when no backend in the
list is eligible (healthy, not draining, breaker allows — with the breaker
consulted only for healthy, non-draining backends, as the fourth conjunct
records); otherwise it hands the strategy exactly the eligible sublist, in
list order and with the breaker updates applied, and returns the
strategy's choice. -/
theorem pool_next_spec (strat : List Backend → Option Backend) (now : Int) (p : Pool)
    (hstrat : ∀ l : List Backend, l ≠ [] → (strat l).isSome = true) :
    (Pool.next strat now p = none ↔ ∀ b ∈ p.backends, eligible now b = false) ∧
    (nextLoop now p.backends).2 =
      (p.backends.filter (eligible now)).map
        (fun b => { b with circuit := (circuit.allow now b.circuit).2 }) ∧
    ((nextLoop now p.backends).2 ≠ [] →
      Pool.next strat now p = strat ((nextLoop now p.backends).2)) ∧
    (nextLoop now p.backends).1 =
      p.backends.map (fun b =>
        if b.healthy && ! b.draining
        then { b with circuit := (circuit.allow now b.circuit).2 } else b) := by
  have hsnd := nextLoop_snd now p.backends
  refine ⟨?_, hsnd, ?_, nextLoop_fst now p.backends⟩
  · constructor
    · intro hnone b hb
      by_contra hc
      have he : eligible now b = true := by simpa using hc
      have hcs : (nextLoop now p.backends).2 ≠ [] := by
        rw [hsnd]
        intro hnil
        have hme : b ∈ p.backends.filter (eligible now) := List.mem_filter.2 ⟨hb, he⟩
        rw [List.map_eq_nil_iff.1 hnil] at hme
        exact absurd hme (List.not_mem_nil b)
      have hne : ¬ p.backends.isEmpty = true := by
        intro hemp
        rw [List.isEmpty_iff] at hemp
        exact absurd (hemp ▸ hb) (List.not_mem_nil b)
      rw [Pool.next, if_neg hne] at hnone
      simp only [List.isEmpty_iff] at hnone
      rw [if_neg (by simpa using hcs)] at hnone
      have := hstrat _ hcs
      rw [hnone] at this
      simp at this
    · intro hall
      have hcs : (nextLoop now p.backends).2 = [] := by
        rw [hsnd]
        have : p.backends.filter (eligible now) = [] := by
          rw [List.filter_eq_nil]
          intro b hb
          simp [hall b hb]
        rw [this, List.map_nil]
      rw [Pool.next]
      by_cases hne : p.backends.isEmpty = true
      · rw [if_pos hne]
      · rw [if_neg hne, if_pos (by simp [hcs])]
  · intro hcs
    have hne : ¬ p.backends.isEmpty = true := by
      intro hemp
      rw [List.isEmpty_iff] at hemp
      apply hcs
      rw [hemp]
      rfl
    rw [Pool.next, if_neg hne]
    show (if ((nextLoop now p.backends).2).isEmpty = true then none
          else strat ((nextLoop now p.backends).2)) = strat ((nextLoop now p.backends).2)
    rw [if_neg (by simpa using hcs)]

theorem pool_next_spec_witness :
    Pool.next List.head? 0 pW = List.head? ((nextLoop 0 pW.backends).2) :=
  (pool_next_spec List.head? 0 pW
      (fun l hl => by cases l with
        | nil => exact absurd rfl hl
        | cons a t => simp)).2.2.1 (by decide)

end backendpool

/-! ## C8: smooth weighted round-robin -/

namespace balancer

theorem bestIdxAux_le (cs : List Backend) :
    ∀ (score : Int) (best : Option Nat) (i : Nat),
      (∀ x ∈ cs, x.meta.tempWeight ≤ score) → bestIdxAux cs score best i = best := by
  induction cs with
  | nil => intro score best i _; rfl
  | cons c cs ih =>
    intro score best i hall
    have hc : ¬ score < c.meta.tempWeight :=
      not_lt_of_le (hall c (List.mem_cons_self c cs))
    simp only [bestIdxAux, if_neg hc]
    exact ih score best (i + 1) (fun x hx => hall x (List.mem_cons_of_mem c hx))

theorem bestIdxAux_max (cs : List Backend) :
    ∀ (score : Int) (best : Option Nat) (i : Nat),
      (∃ x ∈ cs, score < x.meta.tempWeight) →
      ∃ k : Fin cs.length,
        bestIdxAux cs score best i = some (i + k.val) ∧
        score < (cs.get k).meta.tempWeight ∧
        ∀ m : Fin cs.length, (cs.get m).meta.tempWeight ≤ (cs.get k).meta.tempWeight := by
  induction cs with
  | nil => rintro score best i ⟨x, hx, _⟩; exact absurd hx (List.not_mem_nil x)
  | cons c cs ih =>
    intro score best i hex
    by_cases hc : score < c.meta.tempWeight
    · simp only [bestIdxAux, if_pos hc]
      by_cases hrest : ∃ x ∈ cs, c.meta.tempWeight < x.meta.tempWeight
      · obtain ⟨k', hk'eq, hk'gt, hk'max⟩ := ih c.meta.tempWeight (some i) (i + 1) hrest
        refine ⟨k'.succ, ?_, lt_trans hc hk'gt, ?_⟩
        · rw [hk'eq]
          congr 1
          simp only [Fin.val_succ]
          omega
        · intro m
          cases m using Fin.cases with
          | zero => exact le_of_lt hk'gt
          | succ m' => exact hk'max m'
      · push_neg at hrest
        have hres := bestIdxAux_le cs c.meta.tempWeight (some i) (i + 1) hrest
        refine ⟨⟨0, Nat.succ_pos _⟩, ?_, hc, ?_⟩
        · rw [hres]
          simp
        · intro m
          cases m using Fin.cases with
          | zero => exact le_refl _
          | succ m' => exact hrest (cs.get m') (List.get_mem cs m'.val m'.isLt)
    · simp only [bestIdxAux, if_neg hc]
      have hex' : ∃ x ∈ cs, score < x.meta.tempWeight := by
        obtain ⟨x, hx, hgt⟩ := hex
        rcases List.mem_cons.1 hx with h | h
        · subst h; exact absurd hgt hc
        · exact ⟨x, h, hgt⟩
      obtain ⟨k', hk'eq, hk'gt, hk'max⟩ := ih score best (i + 1) hex'
      refine ⟨k'.succ, ?_, hk'gt, ?_⟩
      · rw [hk'eq]
        congr 1
        simp only [Fin.val_succ]
        omega
      · intro m
        cases m using Fin.cases with
        | zero => exact le_trans (le_of_not_lt hc) (le_of_lt hk'gt)
        | succ m' => exact hk'max m'

theorem exists_pos_of_sum_pos (l : List Int) (h : 0 < l.sum) : ∃ x ∈ l, 0 < x := by
  induction l with
  | nil => simp at h
  | cons x xs ih =>
    by_cases hx : 0 < x
    · exact ⟨x, List.mem_cons_self x xs, hx⟩
    · push_neg at hx
      rw [List.sum_cons] at h
      obtain ⟨y, hy, hypos⟩ := ih (by omega)
      exact ⟨y, List.mem_cons_of_mem x hy, hypos⟩

/-- Characterisation of one WRR call on a list that is its own candidate
set: the chosen index is an argmax of the bumped temp-weights, and the
result is the bumped list with the total weight subtracted at that index. -/
theorem wrrNext_eq (bs : List Backend)
    (hfilter : filterCandidates bs = bs) (hne : bs ≠ [])
    (hex : ∃ x ∈ addTempWeights bs, (-1 : Int) < x.meta.tempWeight) :
    ∃ k : Fin (addTempWeights bs).length,
      wrrNext bs = (some (subTotal bs ((addTempWeights bs).get k)),
        (addTempWeights bs).set k.val (subTotal bs ((addTempWeights bs).get k))) ∧
      ∀ m : Fin (addTempWeights bs).length,
        ((addTempWeights bs).get m).meta.tempWeight ≤
          ((addTempWeights bs).get k).meta.tempWeight := by
  obtain ⟨k, hkeq, _, hkmax⟩ := bestIdxAux_max (addTempWeights bs) (-1) none 0 hex
  refine ⟨k, ?_, hkmax⟩
  have hnemp : ¬ bs.isEmpty = true := by
    rw [List.isEmpty_iff]
    exact hne
  rw [show (0 + k.val) = k.val from by omega] at hkeq
  simp only [wrrNext, hfilter, if_neg hnemp, hkeq, List.get?_eq_get k.isLt]
  rfl

/-! ### The full WRR cycle

The cycle argument tracks, for each candidate index, how many times it
has been chosen.  A state after `t` selections is reconstructed from the
initial list `bs0` and a count function `c`: index `i` carries temp-weight
`t·wᵢ - T·cᵢ` where `T` is the total weight. -/

theorem setTemp_self (b : Backend) (h : b.meta.tempWeight = 0) : setTemp b 0 = b := by
  obtain ⟨id, url, w, hh, d, m, c⟩ := b
  obtain ⟨a1, a2, a3, a4, a5, a6, a7, a8⟩ := m
  simp only [BackendMetadata.tempWeight] at h
  simp [setTemp, h]

theorem reconstruct_length (bs0 : List Backend) (f : Fin bs0.length → Int) :
    (reconstruct bs0 f).length = bs0.length := by
  simp [reconstruct]

theorem reconstruct_get (bs0 : List Backend) (f : Fin bs0.length → Int)
    (m : Fin (reconstruct bs0 f).length) :
    (reconstruct bs0 f).get m =
      setTemp (bs0.get (Fin.cast (reconstruct_length bs0 f) m))
        (f (Fin.cast (reconstruct_length bs0 f) m)) := by
  simp only [reconstruct, List.get_ofFn]

theorem sumTemps_reconstruct (bs0 : List Backend) (f : Fin bs0.length → Int) :
    sumTemps (reconstruct bs0 f) = ∑ i, f i := by
  simp [sumTemps, reconstruct, List.map_ofFn, Function.comp_def, setTemp,
    List.sum_ofFn]

theorem totalWeight_get_sum (l : List Backend) :
    totalWeight l = ∑ i : Fin l.length, (l.get i).weight := by
  conv_lhs => rw [← List.ofFn_get l]
  simp [totalWeight, List.map_ofFn, Function.comp_def, List.sum_ofFn]

theorem totalWeight_reconstruct (bs0 : List Backend) (f : Fin bs0.length → Int) :
    totalWeight (reconstruct bs0 f) = totalWeight bs0 := by
  rw [totalWeight_get_sum (reconstruct bs0 f), totalWeight_get_sum bs0]
  rw [← Fin.sum_congr' _ (reconstruct_length bs0 f)]
  congr 1
  funext i
  rw [reconstruct_get]
  rfl

theorem filterCandidates_id (l : List Backend)
    (h : ∀ b ∈ l, b.healthy = true ∧ b.draining = false) :
    filterCandidates l = l := by
  rw [filterCandidates, List.filter_eq_self]
  intro a ha
  simp [(h a ha).1, (h a ha).2]

theorem reconstruct_ne_nil (bs0 : List Backend) (f : Fin bs0.length → Int)
    (h : bs0 ≠ []) : reconstruct bs0 f ≠ [] := by
  intro hc
  apply h
  have := reconstruct_length bs0 f
  rw [hc] at this
  exact List.length_eq_zero.1 this.symm

theorem addTempWeights_reconstruct (bs0 : List Backend) (f : Fin bs0.length → Int) :
    addTempWeights (reconstruct bs0 f) =
      reconstruct bs0 (fun i => f i + ((bs0.get i).weight : Int)) := by
  simp only [addTempWeights, reconstruct, List.map_ofFn]
  rfl

theorem ofFn_set {n : Nat} (g : Fin n → Backend) (j : Fin n) (x : Backend) :
    (List.ofFn g).set j.val x = List.ofFn (Function.update g j x) := by
  apply List.ext_get
  · simp
  · intro i h1 h2
    by_cases hij : i = j.val
    · subst hij
      rw [List.get_set_eq, List.get_ofFn]
      have hc : (Fin.cast (by simp) (⟨j.val, h2⟩ :
          Fin (List.ofFn (Function.update g j x)).length)) = j := Fin.ext rfl
      rw [hc, Function.update_same]
    · rw [List.get_set_of_ne (fun h => hij h.symm), List.get_ofFn, List.get_ofFn,
        Function.update_noteq (Fin.ne_of_val_ne hij)]
      rfl

theorem setTemp_temp (b : Backend) (v : Int) : (setTemp b v).meta.tempWeight = v := rfl

theorem sumTemps_addTempWeights (bs : List Backend) :
    sumTemps (addTempWeights bs) = sumTemps bs + (totalWeight bs : Int) := by
  induction bs with
  | nil => simp [sumTemps, addTempWeights, totalWeight]
  | cons b rest ih =>
    simp only [sumTemps, addTempWeights, totalWeight, List.map_cons, List.sum_cons,
      List.map_map] at ih ⊢
    push_cast
    push_cast at ih
    omega

theorem totalWeight_pos (bs : List Backend) (hne : bs ≠ [])
    (hw : ∀ b ∈ bs, 1 ≤ b.weight) : 1 ≤ totalWeight bs := by
  cases bs with
  | nil => exact absurd rfl hne
  | cons b rest =>
    have := hw b (List.mem_cons_self b rest)
    simp only [totalWeight, List.map_cons, List.sum_cons]
    omega

/-- One WRR call on a reconstructed state: some index `j` maximising the
bumped temp-weights is chosen, and the new state is the reconstruction
with the bumped function updated at `j` by the subtraction of the total
weight. -/
theorem set_reconstruct (bs0 : List Backend) (g : Fin bs0.length → Int)
    (j : Fin bs0.length) (x : Int) :
    (reconstruct bs0 g).set j.val (setTemp (bs0.get j) x) =
      reconstruct bs0 (Function.update g j x) := by
  rw [reconstruct, ofFn_set, reconstruct]
  congr 1
  funext i
  by_cases hij : i = j
  · subst hij
    rw [Function.update_same, Function.update_same]
  · rw [Function.update_noteq hij, Function.update_noteq hij]

theorem wrrNext_reconstruct (bs0 : List Backend)
    (hfields : ∀ b ∈ bs0, b.healthy = true ∧ b.draining = false)
    (hne : bs0 ≠ []) (f : Fin bs0.length → Int)
    (hex : ∃ i : Fin bs0.length, (-1 : Int) < f i + ((bs0.get i).weight : Int)) :
    ∃ j : Fin bs0.length,
      wrrNext (reconstruct bs0 f) =
        (some (setTemp (bs0.get j)
            (f j + ((bs0.get j).weight : Int) - (totalWeight bs0 : Int))),
         reconstruct bs0 (Function.update
            (fun i => f i + ((bs0.get i).weight : Int)) j
            (f j + ((bs0.get j).weight : Int) - (totalWeight bs0 : Int)))) ∧
      ∀ m : Fin bs0.length,
        f m + ((bs0.get m).weight : Int) ≤ f j + ((bs0.get j).weight : Int) := by
  have hcand : ∀ b ∈ reconstruct bs0 f, b.healthy = true ∧ b.draining = false := by
    intro b hb
    rw [reconstruct, List.mem_ofFn] at hb
    obtain ⟨i, hi⟩ := hb
    rw [← hi]
    exact ⟨(hfields _ (List.get_mem bs0 i.val i.isLt)).1,
           (hfields _ (List.get_mem bs0 i.val i.isLt)).2⟩
  have hfilter := filterCandidates_id (reconstruct bs0 f) hcand
  have hRne : reconstruct bs0 f ≠ [] := reconstruct_ne_nil bs0 f hne
  have hA : addTempWeights (reconstruct bs0 f) =
      reconstruct bs0 (fun i => f i + ((bs0.get i).weight : Int)) :=
    addTempWeights_reconstruct bs0 f
  have hAlen : (addTempWeights (reconstruct bs0 f)).length = bs0.length := by
    rw [hA, reconstruct_length]
  have hex' : ∃ x ∈ addTempWeights (reconstruct bs0 f), (-1 : Int) < x.meta.tempWeight := by
    obtain ⟨i, hi⟩ := hex
    refine ⟨setTemp (bs0.get i) (f i + ((bs0.get i).weight : Int)), ?_, hi⟩
    rw [hA, reconstruct, List.mem_ofFn]
    exact ⟨i, rfl⟩
  obtain ⟨k, heq, hmax⟩ := wrrNext_eq (reconstruct bs0 f) hfilter hRne hex'
  have hgetA : ∀ m : Fin (addTempWeights (reconstruct bs0 f)).length,
      (addTempWeights (reconstruct bs0 f)).get m =
        setTemp (bs0.get (Fin.cast hAlen m))
          (f (Fin.cast hAlen m) + ((bs0.get (Fin.cast hAlen m)).weight : Int)) := by
    intro m
    rw [List.get_of_eq hA m, reconstruct_get]
    rfl
  have hsub : subTotal (reconstruct bs0 f)
      ((addTempWeights (reconstruct bs0 f)).get k) =
      setTemp (bs0.get (Fin.cast hAlen k))
        (f (Fin.cast hAlen k) + ((bs0.get (Fin.cast hAlen k)).weight : Int)
          - (totalWeight bs0 : Int)) := by
    rw [hgetA k]
    simp [subTotal, setTemp, totalWeight_reconstruct]
  refine ⟨Fin.cast hAlen k, ?_, ?_⟩
  · rw [heq, hsub]
    congr 1
    have hcong := congrArg
      (fun l => List.set l (k : Nat)
        (setTemp (bs0.get (Fin.cast hAlen k))
          (f (Fin.cast hAlen k) + ((bs0.get (Fin.cast hAlen k)).weight : Int)
            - (totalWeight bs0 : Int)))) hA
    exact hcong.trans (set_reconstruct bs0 _ (Fin.cast hAlen k) _)
  · intro m
    have h := hmax (Fin.cast hAlen.symm m)
    rw [hgetA, hgetA] at h
    simpa [setTemp_temp] using h

theorem sum_weights_int (bs0 : List Backend) :
    (∑ i : Fin bs0.length, ((bs0.get i).weight : Int)) = (totalWeight bs0 : Int) := by
  rw [totalWeight_get_sum]
  push_cast
  rfl

theorem cycleInv_step (bs0 : List Backend)
    (hfields : ∀ b ∈ bs0, b.healthy = true ∧ b.draining = false ∧ 1 ≤ b.weight)
    (hne : bs0 ≠ []) (t : Nat) (cur : List Backend)
    (ht : t < totalWeight bs0) (hinv : CycleInv bs0 t cur) :
    CycleInv bs0 (t + 1) (wrrStep cur) := by
  obtain ⟨c, hcsum, hcle, hcur⟩ := hinv
  subst hcur
  set T : Nat := totalWeight bs0 with hT
  set f : Fin bs0.length → Int := fun i =>
    (t : Int) * ((bs0.get i).weight : Int) - (T : Int) * (c i : Int) with hf
  have hsumc : (∑ i, ((c i : Int))) = (t : Int) := by
    rw [← Nat.cast_sum]
    exact_mod_cast congrArg (Nat.cast : Nat → Int) hcsum
  have hsumf : (∑ i, (f i + ((bs0.get i).weight : Int))) = (T : Int) := by
    rw [Finset.sum_add_distrib]
    simp only [hf]
    rw [Finset.sum_sub_distrib, ← Finset.mul_sum, ← Finset.mul_sum,
      sum_weights_int, hsumc, ← hT]
    ring
  have hTpos : (0 : Int) < (T : Int) := by
    have := totalWeight_pos bs0 hne (fun b hb => (hfields b hb).2.2)
    rw [← hT] at this
    exact_mod_cast lt_of_lt_of_le Nat.zero_lt_one this
  have hexpos : ∃ i : Fin bs0.length, (0 : Int) < f i + ((bs0.get i).weight : Int) := by
    by_contra hcon
    push_neg at hcon
    have : (∑ i, (f i + ((bs0.get i).weight : Int))) ≤ 0 :=
      Finset.sum_nonpos (fun i _ => hcon i)
    rw [hsumf] at this
    exact absurd (lt_of_lt_of_le hTpos this) (lt_irrefl 0)
  have hex : ∃ i : Fin bs0.length, (-1 : Int) < f i + ((bs0.get i).weight : Int) := by
    obtain ⟨i, hi⟩ := hexpos
    exact ⟨i, by omega⟩
  obtain ⟨j, hstep, hmax⟩ := wrrNext_reconstruct bs0
    (fun b hb => ⟨(hfields b hb).1, (hfields b hb).2.1⟩) hne f hex
  have hjpos : (0 : Int) < f j + ((bs0.get j).weight : Int) := by
    obtain ⟨i, hi⟩ := hexpos
    exact lt_of_lt_of_le hi (hmax i)
  refine ⟨Function.update c j (c j + 1), ?_, ?_, ?_⟩
  · rw [Finset.sum_update_of_mem (Finset.mem_univ j), ← Finset.erase_eq]
    have hsplit := Finset.add_sum_erase Finset.univ c (Finset.mem_univ j)
    omega
  · intro i
    by_cases hij : i = j
    · subst hij
      rw [Function.update_same]
      by_contra hcon
      push_neg at hcon
      have hceq : c i = (bs0.get i).weight := le_antisymm (hcle i) (by omega)
      have hle0 : f i + ((bs0.get i).weight : Int) ≤ 0 := by
        simp only [hf, hceq]
        have ht1 : (t : Int) + 1 ≤ (T : Int) := by exact_mod_cast ht
        have hw0 : (0 : Int) ≤ ((bs0.get i).weight : Int) := Int.natCast_nonneg _
        nlinarith
      exact absurd (lt_of_lt_of_le hjpos hle0) (lt_irrefl 0)
    · rw [Function.update_noteq hij]
      exact hcle i
  · rw [wrrStep, hstep]
    show reconstruct bs0 _ = reconstruct bs0 _
    congr 1
    funext i
    by_cases hij : i = j
    · subst hij
      rw [Function.update_same, Function.update_same]
      simp only [hf]
      push_cast
      ring
    · rw [Function.update_noteq hij, Function.update_noteq hij]
      simp only [hf]
      push_cast
      ring

theorem wrrIter_succ_out (t : Nat) (bs : List Backend) :
    wrrIter (t + 1) bs = wrrStep (wrrIter t bs) := by
  induction t generalizing bs with
  | zero => rfl
  | succ t ih =>
    have h1 : wrrIter (t + 1 + 1) bs = wrrIter (t + 1) (wrrStep bs) := rfl
    rw [h1, ih (wrrStep bs)]
    rfl

theorem reconstruct_zero (bs0 : List Backend)
    (hzero : ∀ b ∈ bs0, b.meta.tempWeight = 0) :
    reconstruct bs0 (fun _ => 0) = bs0 := by
  rw [reconstruct]
  conv_rhs => rw [← List.ofFn_get bs0]
  congr 1
  funext i
  exact setTemp_self _ (hzero _ (List.get_mem bs0 i.val i.isLt))

theorem cycleInv_iter (bs0 : List Backend)
    (hfields : ∀ b ∈ bs0, b.healthy = true ∧ b.draining = false ∧ 1 ≤ b.weight)
    (hne : bs0 ≠ []) (hzero : ∀ b ∈ bs0, b.meta.tempWeight = 0) :
    ∀ t : Nat, t ≤ totalWeight bs0 → CycleInv bs0 t (wrrIter t bs0) := by
  intro t
  induction t with
  | zero =>
    intro _
    refine ⟨fun _ => 0, by simp, fun i => Nat.zero_le _, ?_⟩
    calc wrrIter 0 bs0 = bs0 := rfl
      _ = reconstruct bs0 (fun _ => 0) := (reconstruct_zero bs0 hzero).symm
      _ = _ := by
            congr 1
            funext i
            push_cast
            ring
  | succ t ih =>
    intro hle
    have ht : t < totalWeight bs0 := Nat.lt_of_succ_le hle
    rw [wrrIter_succ_out]
    exact cycleInv_step bs0 hfields hne t _ ht (ih (le_of_lt ht))

theorem wrrIter_total_cycle (bs0 : List Backend)
    (hfields : ∀ b ∈ bs0, b.healthy = true ∧ b.draining = false ∧ 1 ≤ b.weight)
    (hne : bs0 ≠ []) (hzero : ∀ b ∈ bs0, b.meta.tempWeight = 0) :
    wrrIter (totalWeight bs0) bs0 = bs0 := by
  obtain ⟨c, hcsum, hcle, hcur⟩ :=
    cycleInv_iter bs0 hfields hne hzero (totalWeight bs0) le_rfl
  have hsumw : (∑ i : Fin bs0.length, (bs0.get i).weight) = totalWeight bs0 :=
    (totalWeight_get_sum bs0).symm
  have hceq : ∀ i, c i = (bs0.get i).weight := by
    by_contra hcon
    push_neg at hcon
    obtain ⟨i, hi⟩ := hcon
    have hlt := Finset.sum_lt_sum (fun m _ => hcle m)
      ⟨i, Finset.mem_univ i, lt_of_le_of_ne (hcle i) hi⟩
    rw [hcsum, hsumw] at hlt
    exact absurd hlt (lt_irrefl _)
  rw [hcur]
  have hfun : (fun i : Fin bs0.length =>
      ((totalWeight bs0 : Nat) : Int) * ((bs0.get i).weight : Int)
        - (totalWeight bs0 : Int) * ((c i : Nat) : Int)) = fun _ => (0 : Int) := by
    funext i
    rw [hceq i]
    ring
  rw [hfun]
  exact reconstruct_zero bs0 hzero

theorem sumTemps_set (l : List Backend) :
    ∀ (k : Fin l.length) (x : Backend),
      sumTemps (l.set k.val x) =
        sumTemps l - (l.get k).meta.tempWeight + x.meta.tempWeight := by
  induction l with
  | nil => exact fun k _ => absurd k.isLt (by simp)
  | cons c cs ih =>
    intro k x
    cases k using Fin.cases with
    | zero => simp [sumTemps]; ring
    | succ k' =>
      show sumTemps (c :: cs.set k'.val x) = _
      simp only [sumTemps, List.map_cons, List.sum_cons] at ih ⊢
      rw [ih k' x]
      have hg : (c :: cs).get k'.succ = cs.get k' := rfl
      rw [hg]
      ring

/-- C8.  For a non-empty candidate list (every backend healthy,
non-draining, with weight at least 1 — the pool filters before calling the
strategy — and a total weight below `2^32` so the `uint32` weight sum does
not wrap):
(1) whenever the temp-weight sum is non-negative (as it is in every
reachable state of a cycle), one call to the smooth weighted round-robin
`Next` adds each candidate's weight to its temp-weight, returns a
candidate whose updated temp-weight is maximal, and subtracts the sum of
all candidate weights from the chosen one, and
(2) the call leaves the sum of the candidates' temp-weights unchanged, and
(3) starting from the initial all-zero temp-weights, a full cycle of
`Σ wᵢ` selections returns every candidate's temp-weight to its starting
value (indeed the whole list returns to its starting state). -/
theorem wrr_spec (bs : List Backend)
    (hcand : ∀ b ∈ bs, b.healthy = true ∧ b.draining = false ∧ 1 ≤ b.weight)
    (hne : bs ≠ []) (hsmall : totalWeight bs < circuit.u32Mod) :
    ((0 : Int) ≤ sumTemps bs →
      ∃ k : Fin (addTempWeights bs).length,
        wrrNext bs = (some (subTotal bs ((addTempWeights bs).get k)),
          (addTempWeights bs).set k.val (subTotal bs ((addTempWeights bs).get k))) ∧
        (∀ m : Fin (addTempWeights bs).length,
          ((addTempWeights bs).get m).meta.tempWeight ≤
            ((addTempWeights bs).get k).meta.tempWeight) ∧
        sumTemps ((wrrNext bs).2) = sumTemps bs) ∧
    ((∀ b ∈ bs, b.meta.tempWeight = 0) → wrrIter (totalWeight bs) bs = bs) := by
  constructor
  · intro hsum
    have hfilter : filterCandidates bs = bs :=
      filterCandidates_id bs (fun b hb => ⟨(hcand b hb).1, (hcand b hb).2.1⟩)
    have hTpos : 1 ≤ totalWeight bs :=
      totalWeight_pos bs hne (fun b hb => (hcand b hb).2.2)
    have hsumA : (0 : Int) < sumTemps (addTempWeights bs) := by
      rw [sumTemps_addTempWeights]
      have : (1 : Int) ≤ (totalWeight bs : Int) := by exact_mod_cast hTpos
      omega
    have hex : ∃ x ∈ addTempWeights bs, (-1 : Int) < x.meta.tempWeight := by
      obtain ⟨v, hv, hvpos⟩ := exists_pos_of_sum_pos _ hsumA
      obtain ⟨b, hb, hbv⟩ := List.mem_map.1 hv
      exact ⟨b, hb, by omega⟩
    obtain ⟨k, heq, hmax⟩ := wrrNext_eq bs hfilter hne hex
    refine ⟨k, heq, hmax, ?_⟩
    rw [heq]
    show sumTemps ((addTempWeights bs).set k.val
      (subTotal bs ((addTempWeights bs).get k))) = sumTemps bs
    rw [sumTemps_set (addTempWeights bs) k, sumTemps_addTempWeights]
    show sumTemps bs + (totalWeight bs : Int)
        - ((addTempWeights bs).get k).meta.tempWeight
        + (((addTempWeights bs).get k).meta.tempWeight - (totalWeight bs : Int))
        = sumTemps bs
    ring
  · intro hzero
    exact wrrIter_total_cycle bs hcand hne hzero

theorem wrr_spec_witness : wrrIter (totalWeight [wrrA, wrrB]) [wrrA, wrrB] = [wrrA, wrrB] :=
  (wrr_spec [wrrA, wrrB] (by decide) (by decide) (by decide)).2 (by decide)

end balancer

end Balto
